import Mathlib

/-!
Verification of the Corrade plugin-management core and string utilities.

The string `partition`/`rpartition` functions are embedded from
`src/Corrade/Utility/String.cpp` (`partitionInternal`, `rpartitionInternal`),
with `std::string` modelled as `List Char` and `std::string::find`/`rfind`
modelled by their documented semantics (first/last position at which the
separator matches, `npos` becoming `none`).

The plugin Manager / registry / resolver / load-state machine is modelled
from the specification (the implementation sources are not part of this
tree); each such definition carries a `Modelled from the spec:` comment.
-/

namespace Corrade

/-! ## String partition (from src/Corrade/Utility/String.cpp) -/

/-- `std::string::find(separator, 0, separator.size())`: smallest position at
which `sep` occurs in `s` (`none` for `npos`).  An empty separator matches at
position 0; a match requires the whole separator to fit, which is exactly
`sep.isPrefixOf (s.drop pos)` for `pos ≤ s.length`. -/
def strFind (s sep : List Char) : Option Nat :=
  (List.range (s.length + 1)).find? (fun pos => sep.isPrefixOf (s.drop pos))

/-- `std::string::rfind(separator, npos, separator.size())`: largest position
at which `sep` occurs in `s` (`none` for `npos`). -/
def strRfind (s sep : List Char) : Option Nat :=
  (List.range (s.length + 1)).reverse.find? (fun pos => sep.isPrefixOf (s.drop pos))

/-- `partitionInternal` from String.cpp: `{string.substr(0, pos),
string.substr(pos, separator.size()), string.substr(pos + separator.size())}`,
with both trailing parts empty when the separator is not found. -/
def partitionInternal (s sep : List Char) : List Char × List Char × List Char :=
  match strFind s sep with
  | none => (s, [], [])
  | some pos => (s.take pos, (s.drop pos).take sep.length, s.drop (pos + sep.length))

/-- `rpartitionInternal` from String.cpp: like `partitionInternal` but using
`rfind`, and with the *leading* parts empty (and the whole string last) when
the separator is not found. -/
def rpartitionInternal (s sep : List Char) : List Char × List Char × List Char :=
  match strRfind s sep with
  | none => ([], [], s)
  | some pos => (s.take pos, (s.drop pos).take sep.length, s.drop (pos + sep.length))

/-- `partition(string, separator)` delegates to `partitionInternal`. -/
def partition (s sep : List Char) : List Char × List Char × List Char :=
  partitionInternal s sep

/-- `rpartition(string, separator)` delegates to `rpartitionInternal`. -/
def rpartition (s sep : List Char) : List Char × List Char × List Char :=
  rpartitionInternal s sep

theorem strFind_isSome_iff (s sep : List Char) :
    (strFind s sep).isSome ↔ sep <:+: s := by
  unfold strFind
  constructor
  · intro h
    obtain ⟨pos, hfind⟩ := Option.isSome_iff_exists.mp h
    have hp := List.find?_some hfind
    have hpre : sep <+: s.drop pos := List.isPrefixOf_iff_prefix.mp hp
    obtain ⟨t, ht⟩ := hpre
    exact ⟨s.take pos, t, by
      rw [List.append_assoc, ht]; exact List.take_append_drop pos s⟩
  · intro ⟨u, v, huv⟩
    have hlen : u.length ≤ s.length := by
      rw [← huv]; simp [List.length_append]
    have hmem : u.length ∈ List.range (s.length + 1) := by
      rw [List.mem_range]; omega
    have hsat : sep.isPrefixOf (s.drop u.length) = true := by
      rw [List.isPrefixOf_iff_prefix, ← huv, List.append_assoc, List.drop_left]
      exact ⟨v, rfl⟩
    exact List.find?_isSome.mpr ⟨u.length, hmem, hsat⟩

theorem strRfind_isSome_iff (s sep : List Char) :
    (strRfind s sep).isSome ↔ sep <:+: s := by
  unfold strRfind
  constructor
  · intro h
    obtain ⟨pos, hfind⟩ := Option.isSome_iff_exists.mp h
    have hp := List.find?_some hfind
    have hpre : sep <+: s.drop pos := List.isPrefixOf_iff_prefix.mp hp
    obtain ⟨t, ht⟩ := hpre
    exact ⟨s.take pos, t, by
      rw [List.append_assoc, ht]; exact List.take_append_drop pos s⟩
  · intro ⟨u, v, huv⟩
    have hlen : u.length ≤ s.length := by
      rw [← huv]; simp [List.length_append]
    have hmem : u.length ∈ (List.range (s.length + 1)).reverse := by
      rw [List.mem_reverse, List.mem_range]; omega
    have hsat : sep.isPrefixOf (s.drop u.length) = true := by
      rw [List.isPrefixOf_iff_prefix, ← huv, List.append_assoc, List.drop_left]
      exact ⟨v, rfl⟩
    exact List.find?_isSome.mpr ⟨u.length, hmem, hsat⟩

theorem partitionInternal_concat (s sep : List Char) :
    (partitionInternal s sep).1 ++ (partitionInternal s sep).2.1 ++
      (partitionInternal s sep).2.2 = s := by
  unfold partitionInternal
  cases h : strFind s sep with
  | none => simp
  | some pos =>
    simp only
    rw [List.append_assoc, ← List.drop_drop, List.take_append_drop,
      List.take_append_drop]

theorem rpartitionInternal_concat (s sep : List Char) :
    (rpartitionInternal s sep).1 ++ (rpartitionInternal s sep).2.1 ++
      (rpartitionInternal s sep).2.2 = s := by
  unfold rpartitionInternal
  cases h : strRfind s sep with
  | none => simp
  | some pos =>
    simp only
    rw [List.append_assoc, ← List.drop_drop, List.take_append_drop,
      List.take_append_drop]

theorem partitionInternal_middle (s sep : List Char) (h : sep <:+: s) :
    (partitionInternal s sep).2.1 = sep := by
  have hs : (strFind s sep).isSome := (strFind_isSome_iff s sep).mpr h
  obtain ⟨pos, hpos⟩ := Option.isSome_iff_exists.mp hs
  have hp := List.find?_some hpos
  have hpre : sep <+: s.drop pos := List.isPrefixOf_iff_prefix.mp hp
  obtain ⟨t, ht⟩ := hpre
  unfold partitionInternal
  rw [hpos]
  simp only
  rw [← ht, List.take_left]

theorem rpartitionInternal_middle (s sep : List Char) (h : sep <:+: s) :
    (rpartitionInternal s sep).2.1 = sep := by
  have hs : (strRfind s sep).isSome := (strRfind_isSome_iff s sep).mpr h
  obtain ⟨pos, hpos⟩ := Option.isSome_iff_exists.mp hs
  have hp := List.find?_some hpos
  have hpre : sep <+: s.drop pos := List.isPrefixOf_iff_prefix.mp hp
  obtain ⟨t, ht⟩ := hpre
  unfold rpartitionInternal
  rw [hpos]
  simp only
  rw [← ht, List.take_left]

theorem partitionInternal_not_found (s sep : List Char) (h : ¬ sep <:+: s) :
    partitionInternal s sep = (s, [], []) := by
  have hs : strFind s sep = none := by
    cases hf : strFind s sep with
    | none => rfl
    | some pos =>
      exact absurd ((strFind_isSome_iff s sep).mp (by rw [hf]; rfl)) h
  unfold partitionInternal
  rw [hs]

theorem rpartitionInternal_not_found (s sep : List Char) (h : ¬ sep <:+: s) :
    rpartitionInternal s sep = ([], [], s) := by
  have hs : strRfind s sep = none := by
    cases hf : strRfind s sep with
    | none => rfl
    | some pos =>
      exact absurd ((strRfind_isSome_iff s sep).mp (by rw [hf]; rfl)) h
  unfold rpartitionInternal
  rw [hs]

/-- C10: for every string `s` and separator `sep`, both `partition s sep` and
`rpartition s sep` return exactly three parts whose concatenation equals `s`;
when `sep` occurs in `s` the middle part equals `sep`; when `sep` does not
occur, `partition` places all of `s` in the first part and `rpartition`
places all of `s` in the third part. -/
theorem claim_c10_partition (s sep : List Char) :
    ((partition s sep).1 ++ (partition s sep).2.1 ++ (partition s sep).2.2 = s)
    ∧ ((rpartition s sep).1 ++ (rpartition s sep).2.1 ++
        (rpartition s sep).2.2 = s)
    ∧ (sep <:+: s →
        (partition s sep).2.1 = sep ∧ (rpartition s sep).2.1 = sep)
    ∧ (¬ sep <:+: s →
        partition s sep = (s, [], []) ∧ rpartition s sep = ([], [], s)) := by
  refine ⟨partitionInternal_concat s sep, rpartitionInternal_concat s sep,
    fun h => ⟨partitionInternal_middle s sep h, rpartitionInternal_middle s sep h⟩,
    fun h => ⟨partitionInternal_not_found s sep h,
      rpartitionInternal_not_found s sep h⟩⟩

/-- C10 witness: the partition properties evaluated on the concrete string
"abcb" with separator "b" (which occurs) and separator "z" (which does not). -/
theorem claim_c10_partition_witness :
    (partition [ 'a', 'b', 'c', 'b' ] [ 'b' ]).2.1 = [ 'b' ]
    ∧ (rpartition [ 'a', 'b', 'c', 'b' ] [ 'b' ]).2.1 = [ 'b' ]
    ∧ partition [ 'a', 'b', 'c', 'b' ] [ 'z' ] = ([ 'a', 'b', 'c', 'b' ], [], [])
    ∧ rpartition [ 'a', 'b', 'c', 'b' ] [ 'z' ] =
        ([], [], [ 'a', 'b', 'c', 'b' ]) := by
  have h1 := (claim_c10_partition [ 'a', 'b', 'c', 'b' ] [ 'b' ]).2.2.1
    (by decide)
  have h2 := (claim_c10_partition [ 'a', 'b', 'c', 'b' ] [ 'z' ]).2.2.2
    (by decide)
  exact ⟨h1.1, h1.2, h2.1, h2.2⟩

/-! ## Plugin manager core

Modelled from the spec: the Manager / registry / dependency resolver /
load-state machine of the PluginManager library is not among the source
files of this tree (only its tests' build files are), so the definitions
below follow the specification's data model (§3), resolver (§4.2),
load/unload state machine (§4.3), and static-registration merge (§4.5).
Platform dynamic-library loading is the opaque capability the spec
prescribes: a `World` says, per plugin, whether opening succeeds, which
interface string and version the opened module reports, and whether the
finalize hook and platform close succeed.  Module handles are numbered
tokens. -/

/-- Modelled from the spec: the `LoadState` enumeration of §4.3 together
with the reported values of §7 (`CyclicDependency`, `Required`). -/
inductive LoadState where
  | NotLoaded
  | Loading
  | Loaded
  | Unloading
  | NotFound
  | WrongMetadataFile
  | WrongInterface
  | WrongVersion
  | UnresolvedDependency
  | CyclicDependency
  | LoadFailed
  | UnloadFailed
  | Required
deriving DecidableEq, Repr

/-- Modelled from the spec: plugin Metadata (§3) — name, declared interface,
numeric version, dependency names in declaration order, provided aliases,
and the aliases this plugin explicitly claims default provision for (§4.5).
The free-form config blob is opaque and unexamined, so it is omitted. -/
structure Metadata where
  name : String
  interface : String
  version : Nat
  dependencies : List String
  aliases : List String
  defaultProviderFor : List String
deriving DecidableEq, Repr

/-- Modelled from the spec: a Registry Entry (§3) — metadata, load state,
optional module handle, dependents (who depends on me), live-instance
count, and the orthogonal static flag. -/
structure Entry where
  metadata : Metadata
  state : LoadState
  module : Option Nat
  dependents : List String
  instanceCount : Nat
  isStatic : Bool
deriving DecidableEq, Repr

/-- Modelled from the spec: the Manager (§3) — the registry it exclusively
owns, the candidates recorded as shadowed at construction (§4.5), the
expected interface string and version, and the next fresh handle number. -/
structure Manager where
  entries : List Entry
  shadowed : List Metadata
  expectedInterface : String
  expectedVersion : Nat
  nextHandle : Nat
deriving DecidableEq, Repr

/-- Modelled from the spec: the platform's opaque module-loading capability
(§1, §4.4) — per plugin name: whether open succeeds, the reported interface
string, the reported version, and whether finalize-plus-close succeeds. -/
structure World where
  openOk : String → Bool
  moduleInterface : String → String
  moduleVersion : String → Nat
  finalizeOk : String → Bool

/-- Look an entry up by its primary name. -/
def findEntry (m : Manager) (id : String) : Option Entry :=
  m.entries.find? (fun e => e.metadata.name == id)

/-- Modelled from the spec: name/alias lookup (§3, §4.5).  A primary name
wins; otherwise among entries offering the alias, the unique self-declared
default provider if there is exactly one, else the first discovered. -/
def lookupEntry (m : Manager) (name : String) : Option Entry :=
  match findEntry m name with
  | some e => some e
  | none =>
    let cands := m.entries.filter (fun e => e.metadata.aliases.contains name)
    match cands.filter (fun e => e.metadata.defaultProviderFor.contains name) with
    | [e] => some e
    | _ => cands.head?

/-- Update the entry with primary name `id` by `f`, leaving others alone. -/
def setEntryF (m : Manager) (id : String) (f : Entry → Entry) : Manager :=
  { m with entries :=
      m.entries.map (fun e => if e.metadata.name == id then f e else e) }

/-- The load state recorded for primary name `id` (`NotFound` if absent). -/
def stateAt (m : Manager) (id : String) : LoadState :=
  match findEntry m id with
  | some e => e.state
  | none => .NotFound

/-- Set the state of the entry with primary name `id`. -/
def setState (m : Manager) (id : String) (st : LoadState) : Manager :=
  setEntryF m id (fun e => { e with state := st })

/-- All primary names in the registry. -/
def entryNames (m : Manager) : List String :=
  m.entries.map (fun e => e.metadata.name)

/-- The module handles currently held open by registry entries. -/
def openHandles (m : Manager) : List Nat :=
  m.entries.filterMap (fun e => e.module)

/-- State of the resolver's depth-first traversal: the currently-on-stack
marker list and the post-order output accumulated so far (§4.2). -/
structure ResolveState where
  stack : List String
  order : List String
deriving DecidableEq, Repr

/-- Modelled from the spec: resolver failures (§4.2) — a cycle (with the
offending chain) or an unresolved dependency name.  `exhausted` is an
artifact of the termination encoding and is proved unreachable below. -/
inductive ResolveError where
  | cyclic (chain : List String)
  | unresolved (missing : String)
  | exhausted
deriving DecidableEq, Repr

/-- Modelled from the spec: the resolver's depth-first traversal (§4.2).
Skips fully-resolved nodes, fails on a node currently on the stack (cycle)
or on an unresolvable name, visits dependencies in declaration order, and
appends each node post-order.  `pending` bounds the nodes that may still be
pushed; it starts as all registry names. -/
def dfs (m : Manager) :
    List String → List String → ResolveState → Except ResolveError ResolveState
  | _, [], st => .ok st
  | pending, n :: rest, st =>
    match lookupEntry m n with
    | none => .error (.unresolved n)
    | some e =>
      if e.metadata.name ∈ st.order then dfs m pending rest st
      else if e.metadata.name ∈ st.stack then
        .error (.cyclic (e.metadata.name :: st.stack))
      else if hp : e.metadata.name ∈ pending then
        match dfs m (pending.erase e.metadata.name) e.metadata.dependencies
            ⟨e.metadata.name :: st.stack, st.order⟩ with
        | .error err => .error err
        | .ok st2 => dfs m pending rest ⟨st.stack, st2.order ++ [e.metadata.name]⟩
      else .error .exhausted
termination_by pending names _ => (pending.length, names.length)
decreasing_by
  · apply Prod.Lex.right
    simp
  · apply Prod.Lex.left
    have h := List.length_erase_of_mem hp
    have : 0 < pending.length := List.length_pos.mpr (List.ne_nil_of_mem hp)
    omega
  · apply Prod.Lex.right
    simp

/-- Modelled from the spec: `resolveOrder(rootName)` (§4.2) — run the
depth-first traversal from the root and return the post-order list. -/
def resolveOrder (m : Manager) (rootId : String) : Except ResolveError (List String) :=
  match dfs m (entryNames m) [rootId] ⟨[], []⟩ with
  | .error e => .error e
  | .ok st => .ok st.order

/-- Modelled from the spec: the failure state corresponding to a resolver
error (§4.3, §7). -/
def errState : ResolveError → LoadState
  | .cyclic _ => .CyclicDependency
  | .unresolved _ => .UnresolvedDependency
  | .exhausted => .UnresolvedDependency

/-- Modelled from the spec: opening an entry's Module Handle (§4.3, §4.4) —
a no-op for static entries (the handle already exists from process start),
a fresh handle for dynamic entries if the platform open succeeds, `none`
(`LoadFailed`) otherwise. -/
def openModule (w : World) (m : Manager) (id : String) (e : Entry) : Option Manager :=
  if e.isStatic then some m
  else if w.openOk id then
    some { setEntryF m id (fun e' => { e' with module := some m.nextHandle }) with
      nextHandle := m.nextHandle + 1 }
  else none

/-- Insert into a set-valued list (no duplicate is added). -/
def insertNew (x : String) (l : List String) : List String :=
  if x ∈ l then l else l ++ [x]

/-- Modelled from the spec: when `x` becomes Loaded, record `x` in the
dependents set of each of its direct dependencies (§4.3). -/
def registerDependents (m : Manager) (x : String) (deps : List String) : Manager :=
  deps.foldl (fun acc d =>
    match lookupEntry acc d with
    | none => acc
    | some de => setEntryF acc de.metadata.name
        (fun de' => { de' with dependents := insertNew x de'.dependents })) m

/-- Modelled from the spec: the tail of a successful per-entry load (§4.3) —
the optional init hook runs (opaque, outside the Manager's state), the
entry's state becomes `Loaded`, and it is recorded in its dependencies'
dependents sets. -/
def finishLoad (m : Manager) (x : String) : Manager :=
  match findEntry m x with
  | none => m
  | some e => registerDependents (setState m x .Loaded) x e.metadata.dependencies

/-- Modelled from the spec: walk the resolved order, dependencies first
(§4.3).  Already-`Loaded` entries are skipped; otherwise the module handle
is opened and its reported interface and version are verified.  Any failure
aborts the whole chain and unwinds every effect of this call — handles
opened earlier are closed, states and dependent-refcounts revert — leaving
only the failing entry's failure state on top of the pre-call manager
`m0`. -/
def loadChainGo (w : World) (m0 : Manager) : Manager → List String → LoadState × Manager
  | mc, [] => (.Loaded, mc)
  | mc, x :: rest =>
    match findEntry mc x with
    | none => (.NotFound, m0)
    | some e =>
      if e.state = .Loaded then loadChainGo w m0 mc rest
      else
        match openModule w mc x e with
        | none => (.LoadFailed, setState m0 x .LoadFailed)
        | some mo =>
          if w.moduleInterface x ≠ m0.expectedInterface then
            (.WrongInterface, setState m0 x .WrongInterface)
          else if w.moduleVersion x ≠ m0.expectedVersion then
            (.WrongVersion, setState m0 x .WrongVersion)
          else loadChainGo w m0 (finishLoad mo x) rest

/-- Modelled from the spec: `load(name)` (§4.3) — `NotFound` on an unknown
name, immediate success if already `Loaded`, otherwise run the resolver
(on failure set this entry's state to the corresponding failure state, no
partial mutation of other entries) and then load the resolved order. -/
def load (w : World) (m : Manager) (name : String) : LoadState × Manager :=
  match lookupEntry m name with
  | none => (.NotFound, m)
  | some e =>
    if e.state = .Loaded then (.Loaded, m)
    else
      match resolveOrder m e.metadata.name with
      | .error err => (errState err, setState m e.metadata.name (errState err))
      | .ok order => loadChainGo w m m order

/-- Modelled from the spec: after a successful unload of `x`, remove `x`
from the dependents set of each of its direct dependencies (§4.3). -/
def removeFromDependents (m : Manager) (x : String) (deps : List String) : Manager :=
  deps.foldl (fun acc d =>
    match lookupEntry acc d with
    | none => acc
    | some de => setEntryF acc de.metadata.name
        (fun de' => { de' with dependents := de'.dependents.erase x })) m

/-- Modelled from the spec: `unload(name)` (§4.3) — `NotFound` if absent,
no-op success if already `NotLoaded`, `Required` if instantiated or
depended upon by a `Loaded` entry, `Required` if static; otherwise run the
finalize hook and close the handle: on success the state becomes
`NotLoaded` and this entry is removed from its dependencies' dependents
sets, on failure the state becomes `UnloadFailed` with the handle left in
place. -/
def unload (w : World) (m : Manager) (name : String) : LoadState × Manager :=
  match lookupEntry m name with
  | none => (.NotFound, m)
  | some e =>
    if e.state = .NotLoaded then (.NotLoaded, m)
    else if e.instanceCount > 0 ∨ ∃ d ∈ e.dependents, stateAt m d = .Loaded then
      (.Required, m)
    else if e.isStatic then (.Required, m)
    else if w.finalizeOk e.metadata.name then
      (.NotLoaded,
        removeFromDependents
          (setEntryF m e.metadata.name
            (fun e' => { e' with state := .NotLoaded, module := none }))
          e.metadata.name e.metadata.dependencies)
    else (.UnloadFailed, setState m e.metadata.name .UnloadFailed)

/-- Modelled from the spec: `instantiate(name)` (§6, §7) — an error with the
current state unless the entry is `Loaded`; on success the instance count is
bumped and the Instance (its entry id) is returned. -/
def instantiate (m : Manager) (name : String) : Except LoadState (String × Manager) :=
  match lookupEntry m name with
  | none => .error .NotFound
  | some e =>
    if e.state = .Loaded then
      .ok (e.metadata.name,
        setEntryF m e.metadata.name
          (fun e' => { e' with instanceCount := e'.instanceCount + 1 }))
    else .error e.state

/-- Modelled from the spec: Instance destruction (§3) — decrements the
entry's instance count and triggers nothing else. -/
def destroyInstance (m : Manager) (id : String) : Manager :=
  setEntryF m id (fun e => { e with instanceCount := e.instanceCount - 1 })

/-- A registry entry as created at discovery/registration time (§3):
state `NotLoaded`, no dependents, no instances. -/
def freshEntry (md : Metadata) (handle : Option Nat) (static : Bool) : Entry :=
  { metadata := md, state := .NotLoaded, module := handle, dependents := [],
    instanceCount := 0, isStatic := static }

/-- Modelled from the spec: merging one statically-registered plugin at
Manager construction (§4.5) — on a name collision the first registrant is
kept; otherwise a static entry whose handle exists from process start. -/
def addStatic (m : Manager) (md : Metadata) : Manager :=
  if m.entries.any (fun e => e.metadata.name == md.name) then m
  else { m with
    entries := m.entries ++ [freshEntry md (some m.nextHandle) true],
    nextHandle := m.nextHandle + 1 }

/-- Modelled from the spec: admitting one directory-discovered dynamic
candidate (§4.5) — a name collision with any earlier candidate (static
takes precedence; so does an earlier dynamic) records it as shadowed,
otherwise a dynamic entry with no handle is appended. -/
def addDynamic (m : Manager) (md : Metadata) : Manager :=
  if m.entries.any (fun e => e.metadata.name == md.name) then
    { m with shadowed := m.shadowed ++ [md] }
  else { m with entries := m.entries ++ [freshEntry md none false] }

/-- Modelled from the spec: Manager construction (§4.5) — the process-wide
static registration list is merged first, then the directory-discovered
dynamic candidates in deterministic scan order. -/
def mkManager (statics dynamics : List Metadata) (iface : String) (ver : Nat) :
    Manager :=
  dynamics.foldl addDynamic
    (statics.foldl addStatic
      { entries := [], shadowed := [], expectedInterface := iface,
        expectedVersion := ver, nextHandle := 0 })

/-- One public Manager operation (§6). -/
inductive Op where
  | loadOp (name : String)
  | unloadOp (name : String)
  | instantiateOp (name : String)
  | destroyOp (name : String)
deriving DecidableEq, Repr

/-- The Manager state after one public operation (failed instantiation and
destruction of a nonexistent instance leave the Manager unchanged). -/
def step (w : World) (m : Manager) : Op → Manager
  | .loadOp n => (load w m n).2
  | .unloadOp n => (unload w m n).2
  | .instantiateOp n =>
    match instantiate m n with
    | .ok p => p.2
    | .error _ => m
  | .destroyOp n =>
    match lookupEntry m n with
    | none => m
    | some e =>
      if e.instanceCount > 0 then destroyInstance m e.metadata.name else m

/-- The Manager state after a sequence of public operations. -/
def run (w : World) (m : Manager) : List Op → Manager
  | [] => m
  | op :: ops => run w (step w m op) ops

/-- One dependency edge between canonical entry names: `x`'s entry lists a
dependency name resolving to the entry named `y`. -/
def DependsOn (m : Manager) (x y : String) : Prop :=
  ∃ e, findEntry m x = some e ∧ ∃ d ∈ e.metadata.dependencies,
    ∃ e', lookupEntry m d = some e' ∧ e'.metadata.name = y

/-- Transitive-reflexive dependency reachability between canonical names. -/
def Reaches (m : Manager) : String → String → Prop :=
  Relation.ReflTransGen (DependsOn m)

/-- The dependency graph has no (nonempty) cycle. -/
def Acyclic (m : Manager) : Prop :=
  ∀ x, ¬ Relation.TransGen (DependsOn m) x x

/-- `id` is in the transitive dependency closure of the plugin requested
under `name`. -/
def InClosure (m : Manager) (name id : String) : Prop :=
  ∃ e, lookupEntry m name = some e ∧ Reaches m e.metadata.name id

/-- A wellformed registry: primary names are pairwise distinct (§3 makes
the name the unique key of the `entries` map). -/
def WellFormed (m : Manager) : Prop := (entryNames m).Nodup

/-- Every dependency of every entry reachable from `root` resolves. -/
def ResolvableFrom (m : Manager) (root : String) : Prop :=
  ∀ y, Reaches m root y → ∀ e, findEntry m y = some e →
    ∀ d ∈ e.metadata.dependencies, ∃ e', lookupEntry m d = some e'

/-- In the list `l`, the canonical name of every dependency of every member
occurs strictly before that member: the resolver's output contract. -/
def GoodOrder (m : Manager) (l : List String) : Prop :=
  ∀ pre x suf, l = pre ++ x :: suf → ∀ e, findEntry m x = some e →
    ∀ d ∈ e.metadata.dependencies, ∀ e', lookupEntry m d = some e' →
      e'.metadata.name ∈ pre

/-! ### Registry lookup lemmas -/

theorem findEntry_mem {m : Manager} {id : String} {e : Entry}
    (h : findEntry m id = some e) : e ∈ m.entries ∧ e.metadata.name = id := by
  unfold findEntry at h
  refine ⟨List.mem_of_find?_eq_some h, ?_⟩
  have := List.find?_some h
  simpa using this

theorem lookupEntry_mem {m : Manager} {n : String} {e : Entry}
    (h : lookupEntry m n = some e) : e ∈ m.entries := by
  unfold lookupEntry at h
  cases hf : findEntry m n with
  | some e' =>
    rw [hf] at h
    cases h
    exact (findEntry_mem hf).1
  | none =>
    rw [hf] at h
    simp only at h
    set cands := m.entries.filter (fun e => e.metadata.aliases.contains n) with hc
    have hsub : ∀ x ∈ cands, x ∈ m.entries := by
      intro x hx; exact List.mem_of_mem_filter hx
    cases hd : cands.filter (fun e => e.metadata.defaultProviderFor.contains n) with
    | nil =>
      rw [hd] at h
      exact hsub _ (List.mem_of_mem_head? h)
    | cons a tl =>
      cases tl with
      | nil =>
        rw [hd] at h
        cases h
        have : e ∈ cands := List.mem_of_mem_filter (by rw [hd]; exact List.mem_singleton_self e)
        exact hsub _ this
      | cons b tl' =>
        rw [hd] at h
        exact hsub _ (List.mem_of_mem_head? h)

theorem find_first_of_nodup {l : List Entry}
    (hnd : (l.map (fun e => e.metadata.name)).Nodup) {e : Entry} (he : e ∈ l) :
    l.find? (fun x => x.metadata.name == e.metadata.name) = some e := by
  induction l with
  | nil => cases he
  | cons a tl ih =>
    simp only [List.map_cons, List.nodup_cons] at hnd
    rcases List.mem_cons.mp he with rfl | hmem
    · simp [List.find?]
    · have hne : ¬ (a.metadata.name == e.metadata.name) = true := by
        intro hq
        exact hnd.1 (by
          rw [show a.metadata.name = e.metadata.name from by simpa using hq]
          exact List.mem_map_of_mem (fun x => x.metadata.name) hmem)
      simp only [List.find?, hne]
      exact ih hnd.2 hmem

theorem findEntry_of_mem {m : Manager} (hwf : WellFormed m) {e : Entry}
    (he : e ∈ m.entries) : findEntry m e.metadata.name = some e :=
  find_first_of_nodup hwf he

theorem lookupEntry_canonical {m : Manager} (hwf : WellFormed m) {n : String}
    {e : Entry} (h : lookupEntry m n = some e) :
    findEntry m e.metadata.name = some e :=
  findEntry_of_mem hwf (lookupEntry_mem h)

/-! ### Resolver traversal lemmas -/

theorem dfs_ok_stack (m : Manager) (pending names : List String)
    (st : ResolveState) :
    ∀ st', dfs m pending names st = .ok st' → st'.stack = st.stack := by
  induction pending, names, st using dfs.induct m with
  | case1 p st =>
    intro st' h
    simp only [dfs] at h
    cases h; rfl
  | case2 p n rest st hlk =>
    intro st' h
    simp only [dfs, hlk] at h
    exact Except.noConfusion h
  | case3 p n rest st e hlk hmem ih =>
    intro st' h
    simp only [dfs, hlk, if_pos hmem] at h
    exact ih st' h
  | case4 p n rest st e hlk h1 h2 =>
    intro st' h
    simp only [dfs, hlk, if_neg h1, if_pos h2] at h
    exact Except.noConfusion h
  | case5 p n rest st e hlk h1 h2 h3 err herr ih =>
    intro st' h
    simp only [dfs, hlk, if_neg h1, if_neg h2, dif_pos h3, herr] at h
    exact Except.noConfusion h
  | case6 p n rest st e hlk h1 h2 h3 st2 hok ih1 ih2 =>
    intro st' h
    simp only [dfs, hlk, if_neg h1, if_neg h2, dif_pos h3, hok] at h
    exact ih2 st' h
  | case7 p n rest st e hlk h1 h2 h3 =>
    intro st' h
    simp only [dfs, hlk, if_neg h1, if_neg h2, dif_neg h3] at h
    exact Except.noConfusion h

theorem dfs_ok_order_extend (m : Manager) (pending names : List String)
    (st : ResolveState) :
    ∀ st', dfs m pending names st = .ok st' →
      ∃ t, st'.order = st.order ++ t := by
  induction pending, names, st using dfs.induct m with
  | case1 p st =>
    intro st' h
    simp only [dfs] at h
    cases h
    exact ⟨[], by simp⟩
  | case2 p n rest st hlk =>
    intro st' h
    simp only [dfs, hlk] at h
    exact Except.noConfusion h
  | case3 p n rest st e hlk hmem ih =>
    intro st' h
    simp only [dfs, hlk, if_pos hmem] at h
    exact ih st' h
  | case4 p n rest st e hlk h1 h2 =>
    intro st' h
    simp only [dfs, hlk, if_neg h1, if_pos h2] at h
    exact Except.noConfusion h
  | case5 p n rest st e hlk h1 h2 h3 err herr ih =>
    intro st' h
    simp only [dfs, hlk, if_neg h1, if_neg h2, dif_pos h3, herr] at h
    exact Except.noConfusion h
  | case6 p n rest st e hlk h1 h2 h3 st2 hok ih1 ih2 =>
    intro st' h
    simp only [dfs, hlk, if_neg h1, if_neg h2, dif_pos h3, hok] at h
    obtain ⟨t1, ht1⟩ := ih1 st2 hok
    obtain ⟨t2, ht2⟩ := ih2 st' h
    refine ⟨t1 ++ [e.metadata.name] ++ t2, ?_⟩
    rw [ht2]
    simp only at ht1
    rw [ht1]
    simp
  | case7 p n rest st e hlk h1 h2 h3 =>
    intro st' h
    simp only [dfs, hlk, if_neg h1, if_neg h2, dif_neg h3] at h
    exact Except.noConfusion h

theorem dfs_ok_names_covered (m : Manager) (pending names : List String)
    (st : ResolveState) :
    ∀ st', dfs m pending names st = .ok st' →
      ∀ n ∈ names, ∀ e, lookupEntry m n = some e →
        e.metadata.name ∈ st'.order := by
  induction pending, names, st using dfs.induct m with
  | case1 p st =>
    intro st' h n hn
    cases hn
  | case2 p n rest st hlk =>
    intro st' h
    simp only [dfs, hlk] at h
    exact Except.noConfusion h
  | case3 p n rest st e hlk hmem ih =>
    intro st' h n' hn' e' hlk'
    simp only [dfs, hlk, if_pos hmem] at h
    rcases List.mem_cons.mp hn' with rfl | hmem'
    · rw [hlk] at hlk'
      cases hlk'
      obtain ⟨t, ht⟩ := dfs_ok_order_extend m p rest st st' h
      rw [ht]
      exact List.mem_append_left t hmem
    · exact ih st' h n' hmem' e' hlk'
  | case4 p n rest st e hlk h1 h2 =>
    intro st' h
    simp only [dfs, hlk, if_neg h1, if_pos h2] at h
    exact Except.noConfusion h
  | case5 p n rest st e hlk h1 h2 h3 err herr ih =>
    intro st' h
    simp only [dfs, hlk, if_neg h1, if_neg h2, dif_pos h3, herr] at h
    exact Except.noConfusion h
  | case6 p n rest st e hlk h1 h2 h3 st2 hok ih1 ih2 =>
    intro st' h n' hn' e' hlk'
    simp only [dfs, hlk, if_neg h1, if_neg h2, dif_pos h3, hok] at h
    rcases List.mem_cons.mp hn' with rfl | hmem'
    · rw [hlk] at hlk'
      cases hlk'
      obtain ⟨t, ht⟩ := dfs_ok_order_extend m p rest _ st' h
      rw [ht]
      simp
    · exact ih2 st' h n' hmem' e' hlk'
  | case7 p n rest st e hlk h1 h2 h3 =>
    intro st' h
    simp only [dfs, hlk, if_neg h1, if_neg h2, dif_neg h3] at h
    exact Except.noConfusion h

theorem dfs_ok_new_not_stack (m : Manager) (pending names : List String)
    (st : ResolveState) :
    ∀ st', dfs m pending names st = .ok st' →
      ∀ y ∈ st'.order, y ∈ st.order ∨ y ∉ st.stack := by
  induction pending, names, st using dfs.induct m with
  | case1 p st =>
    intro st' h y hy
    simp only [dfs] at h
    cases h
    exact Or.inl hy
  | case2 p n rest st hlk =>
    intro st' h
    simp only [dfs, hlk] at h
    exact Except.noConfusion h
  | case3 p n rest st e hlk hmem ih =>
    intro st' h
    simp only [dfs, hlk, if_pos hmem] at h
    exact ih st' h
  | case4 p n rest st e hlk h1 h2 =>
    intro st' h
    simp only [dfs, hlk, if_neg h1, if_pos h2] at h
    exact Except.noConfusion h
  | case5 p n rest st e hlk h1 h2 h3 err herr ih =>
    intro st' h
    simp only [dfs, hlk, if_neg h1, if_neg h2, dif_pos h3, herr] at h
    exact Except.noConfusion h
  | case6 p n rest st e hlk h1 h2 h3 st2 hok ih1 ih2 =>
    intro st' h y hy
    simp only [dfs, hlk, if_neg h1, if_neg h2, dif_pos h3, hok] at h
    rcases ih2 st' h y hy with hy2 | hns
    · simp only at hy2
      rcases List.mem_append.mp hy2 with hy3 | hy4
      · rcases ih1 st2 hok y hy3 with hl | hr
        · exact Or.inl hl
        · right
          intro hc
          exact hr (List.mem_cons_of_mem _ hc)
      · right
        have : y = e.metadata.name := by simpa using hy4
        rw [this]
        exact h2
    · exact Or.inr hns
  | case7 p n rest st e hlk h1 h2 h3 =>
    intro st' h
    simp only [dfs, hlk, if_neg h1, if_neg h2, dif_neg h3] at h
    exact Except.noConfusion h

theorem dfs_ok_new_reachable (m : Manager) (hwf : WellFormed m)
    (pending names : List String) (st : ResolveState) :
    ∀ st', dfs m pending names st = .ok st' →
      ∀ y ∈ st'.order, y ∈ st.order ∨
        ∃ n ∈ names, ∃ e, lookupEntry m n = some e ∧
          Reaches m e.metadata.name y := by
  induction pending, names, st using dfs.induct m with
  | case1 p st =>
    intro st' h y hy
    simp only [dfs] at h
    cases h
    exact Or.inl hy
  | case2 p n rest st hlk =>
    intro st' h
    simp only [dfs, hlk] at h
    exact Except.noConfusion h
  | case3 p n rest st e hlk hmem ih =>
    intro st' h y hy
    simp only [dfs, hlk, if_pos hmem] at h
    rcases ih st' h y hy with hl | ⟨n', hn', e', hlk', hr⟩
    · exact Or.inl hl
    · exact Or.inr ⟨n', List.mem_cons_of_mem _ hn', e', hlk', hr⟩
  | case4 p n rest st e hlk h1 h2 =>
    intro st' h
    simp only [dfs, hlk, if_neg h1, if_pos h2] at h
    exact Except.noConfusion h
  | case5 p n rest st e hlk h1 h2 h3 err herr ih =>
    intro st' h
    simp only [dfs, hlk, if_neg h1, if_neg h2, dif_pos h3, herr] at h
    exact Except.noConfusion h
  | case6 p n rest st e hlk h1 h2 h3 st2 hok ih1 ih2 =>
    intro st' h y hy
    simp only [dfs, hlk, if_neg h1, if_neg h2, dif_pos h3, hok] at h
    rcases ih2 st' h y hy with hy2 | ⟨n', hn', e', hlk', hr⟩
    · simp only at hy2
      rcases List.mem_append.mp hy2 with hy3 | hy4
      · rcases ih1 st2 hok y hy3 with hl | ⟨d, hd, e', hlk', hr⟩
        · exact Or.inl hl
        · refine Or.inr ⟨n, List.mem_cons_self n rest, e, hlk, ?_⟩
          refine Relation.ReflTransGen.head ?_ hr
          exact ⟨e, lookupEntry_canonical hwf hlk, d, hd, e', hlk', rfl⟩
      · have : y = e.metadata.name := by simpa using hy4
        rw [this]
        exact Or.inr ⟨n, List.mem_cons_self n rest, e, hlk,
          Relation.ReflTransGen.refl⟩
    · exact Or.inr ⟨n', List.mem_cons_of_mem _ hn', e', hlk', hr⟩
  | case7 p n rest st e hlk h1 h2 h3 =>
    intro st' h
    simp only [dfs, hlk, if_neg h1, if_neg h2, dif_neg h3] at h
    exact Except.noConfusion h

theorem snoc_eq_append_cons {α : Type} {l pre suf : List α} {x a : α}
    (h : l ++ [a] = pre ++ x :: suf) :
    (pre = l ∧ x = a ∧ suf = []) ∨
      ∃ suf', suf = suf' ++ [a] ∧ l = pre ++ x :: suf' := by
  rcases List.eq_nil_or_concat suf with rfl | ⟨s', b, rfl⟩
  · left
    obtain ⟨h1, h2⟩ := List.append_inj' h rfl
    injection h2 with hx
    exact ⟨h1.symm, hx.symm, rfl⟩
  · right
    rw [List.concat_eq_append] at h
    have hassoc : pre ++ x :: (s' ++ [b]) = (pre ++ x :: s') ++ [b] := by simp
    rw [hassoc] at h
    obtain ⟨h1, h2⟩ := List.append_inj' h rfl
    injection h2 with hb
    exact ⟨s', by rw [List.concat_eq_append, hb], h1⟩

theorem dfs_ok_good (m : Manager) (hwf : WellFormed m)
    (pending names : List String) (st : ResolveState) :
    ∀ st', dfs m pending names st = .ok st' →
      GoodOrder m st.order → GoodOrder m st'.order := by
  induction pending, names, st using dfs.induct m with
  | case1 p st =>
    intro st' h hg
    simp only [dfs] at h
    cases h
    exact hg
  | case2 p n rest st hlk =>
    intro st' h
    simp only [dfs, hlk] at h
    exact Except.noConfusion h
  | case3 p n rest st e hlk hmem ih =>
    intro st' h hg
    simp only [dfs, hlk, if_pos hmem] at h
    exact ih st' h hg
  | case4 p n rest st e hlk h1 h2 =>
    intro st' h
    simp only [dfs, hlk, if_neg h1, if_pos h2] at h
    exact Except.noConfusion h
  | case5 p n rest st e hlk h1 h2 h3 err herr ih =>
    intro st' h
    simp only [dfs, hlk, if_neg h1, if_neg h2, dif_pos h3, herr] at h
    exact Except.noConfusion h
  | case6 p n rest st e hlk h1 h2 h3 st2 hok ih1 ih2 =>
    intro st' h hg
    simp only [dfs, hlk, if_neg h1, if_neg h2, dif_pos h3, hok] at h
    have hg2 : GoodOrder m (st2.order ++ [e.metadata.name]) := by
      intro pre x suf heq e₁ hfind d hd e₁' hlk'
      rcases snoc_eq_append_cons heq with ⟨hpre, hx, hsuf⟩ | ⟨suf', hsuf, hl⟩
      · subst hpre
        subst hx
        have hcanon : findEntry m e.metadata.name = some e :=
          lookupEntry_canonical hwf hlk
        rw [hcanon] at hfind
        cases hfind
        exact dfs_ok_names_covered m (p.erase e.metadata.name)
          e.metadata.dependencies _ st2 hok d hd e₁' hlk'
      · exact ih1 st2 hok hg pre x suf' hl e₁ hfind d hd e₁' hlk'
    exact ih2 st' h hg2
  | case7 p n rest st e hlk h1 h2 h3 =>
    intro st' h
    simp only [dfs, hlk, if_neg h1, if_neg h2, dif_neg h3] at h
    exact Except.noConfusion h

theorem dfs_ok_nodup (m : Manager) (pending names : List String)
    (st : ResolveState) :
    ∀ st', dfs m pending names st = .ok st' →
      st.order.Nodup → st'.order.Nodup := by
  induction pending, names, st using dfs.induct m with
  | case1 p st =>
    intro st' h hnd
    simp only [dfs] at h
    cases h
    exact hnd
  | case2 p n rest st hlk =>
    intro st' h
    simp only [dfs, hlk] at h
    exact Except.noConfusion h
  | case3 p n rest st e hlk hmem ih =>
    intro st' h hnd
    simp only [dfs, hlk, if_pos hmem] at h
    exact ih st' h hnd
  | case4 p n rest st e hlk h1 h2 =>
    intro st' h
    simp only [dfs, hlk, if_neg h1, if_pos h2] at h
    exact Except.noConfusion h
  | case5 p n rest st e hlk h1 h2 h3 err herr ih =>
    intro st' h
    simp only [dfs, hlk, if_neg h1, if_neg h2, dif_pos h3, herr] at h
    exact Except.noConfusion h
  | case6 p n rest st e hlk h1 h2 h3 st2 hok ih1 ih2 =>
    intro st' h hnd
    simp only [dfs, hlk, if_neg h1, if_neg h2, dif_pos h3, hok] at h
    have hnotin : e.metadata.name ∉ st2.order := by
      intro hc
      rcases dfs_ok_new_not_stack m (p.erase e.metadata.name)
          e.metadata.dependencies _ st2 hok e.metadata.name hc with hl | hr
      · exact h1 hl
      · exact hr (List.mem_cons_self _ _)
    have hnd2 : (st2.order ++ [e.metadata.name]).Nodup := by
      simp [List.nodup_append, ih1 st2 hok hnd, hnotin]
    exact ih2 st' h hnd2
  | case7 p n rest st e hlk h1 h2 h3 =>
    intro st' h
    simp only [dfs, hlk, if_neg h1, if_neg h2, dif_neg h3] at h
    exact Except.noConfusion h

theorem chain_stack_reaches (m : Manager) :
    ∀ (t : List String) (a : String),
      List.Chain' (fun x y => DependsOn m y x) (a :: t) →
      ∀ id ∈ a :: t, Relation.ReflTransGen (DependsOn m) id a := by
  intro t
  induction t with
  | nil =>
    intro a _ id hid
    rcases List.mem_cons.mp hid with rfl | hmem
    · exact Relation.ReflTransGen.refl
    · cases hmem
  | cons b t' ih =>
    intro a hch id hid
    rcases List.mem_cons.mp hid with rfl | hmem
    · exact Relation.ReflTransGen.refl
    · have hstep : DependsOn m b a := (List.chain'_cons.mp hch).1
      have hrtg : Relation.ReflTransGen (DependsOn m) id b :=
        ih b (List.chain'_cons.mp hch).2 id hmem
      exact hrtg.tail hstep

theorem dfs_cyclic_has_cycle (m : Manager) (hwf : WellFormed m)
    (pending names : List String) (st : ResolveState) :
    ∀ c, dfs m pending names st = .error (.cyclic c) →
      List.Chain' (fun x y => DependsOn m y x) st.stack →
      (∀ n ∈ names, ∀ e, lookupEntry m n = some e →
        ∀ hh t, st.stack = hh :: t → DependsOn m hh e.metadata.name) →
      ∃ x, Relation.TransGen (DependsOn m) x x := by
  induction pending, names, st using dfs.induct m with
  | case1 p st =>
    intro c h _ _
    simp [dfs] at h
  | case2 p n rest st hlk =>
    intro c h _ _
    simp [dfs, hlk] at h
  | case3 p n rest st e hlk hmem ih =>
    intro c h hch hhd
    simp only [dfs, hlk, if_pos hmem] at h
    exact ih c h hch (fun n' hn' => hhd n' (List.mem_cons_of_mem _ hn'))
  | case4 p n rest st e hlk h1 h2 =>
    intro c h hch hhd
    cases hs : st.stack with
    | nil =>
      rw [hs] at h2
      cases h2
    | cons hh t =>
      rw [hs] at h2 hch
      have hdep : DependsOn m hh e.metadata.name :=
        hhd n (List.mem_cons_self n rest) e hlk hh t hs
      have hrtg : Relation.ReflTransGen (DependsOn m) e.metadata.name hh :=
        chain_stack_reaches m t hh hch e.metadata.name h2
      exact ⟨e.metadata.name, Relation.TransGen.tail' hrtg hdep⟩
  | case5 p n rest st e hlk h1 h2 h3 err herr ih =>
    intro c h hch hhd
    simp only [dfs, hlk, if_neg h1, if_neg h2, dif_pos h3, herr] at h
    injection h with herrc
    subst herrc
    have hcanon : findEntry m e.metadata.name = some e :=
      lookupEntry_canonical hwf hlk
    refine ih c herr ?_ ?_
    · rw [List.chain'_cons']
      refine ⟨?_, hch⟩
      intro y hy
      cases hs : st.stack with
      | nil =>
        rw [hs] at hy
        cases hy
      | cons a t =>
        rw [hs] at hy
        have hya : y = a := by
          have := hy
          simp at this
          exact this.symm
        rw [hya]
        exact hhd n (List.mem_cons_self n rest) e hlk a t hs
    · intro d hd e' hlk' hh t hst
      injection hst with hh1 ht1
      subst hh1
      exact ⟨e, hcanon, d, hd, e', hlk', rfl⟩
  | case6 p n rest st e hlk h1 h2 h3 st2 hok ih1 ih2 =>
    intro c h hch hhd
    simp only [dfs, hlk, if_neg h1, if_neg h2, dif_pos h3, hok] at h
    exact ih2 c h hch (fun n' hn' => hhd n' (List.mem_cons_of_mem _ hn'))
  | case7 p n rest st e hlk h1 h2 h3 =>
    intro c h _ _
    simp [dfs, hlk, if_neg h1, if_neg h2, dif_neg h3] at h

theorem dfs_ok_or_cyclic (m : Manager) (hwf : WellFormed m) (root : String)
    (hres : ResolvableFrom m root) (pending names : List String)
    (st : ResolveState) :
    (∀ n ∈ names, ∃ e, lookupEntry m n = some e ∧
      Reaches m root e.metadata.name) →
    (∀ x ∈ entryNames m, x ∉ pending → x ∈ st.order ∨ x ∈ st.stack) →
    (∃ st', dfs m pending names st = .ok st') ∨
      (∃ c, dfs m pending names st = .error (.cyclic c)) := by
  induction pending, names, st using dfs.induct m with
  | case1 p st =>
    intro _ _
    exact Or.inl ⟨st, by simp only [dfs]⟩
  | case2 p n rest st hlk =>
    intro hA _
    obtain ⟨e, hlk', _⟩ := hA n (List.mem_cons_self n rest)
    rw [hlk] at hlk'
    exact Option.noConfusion hlk'
  | case3 p n rest st e hlk hmem ih =>
    intro hA hB
    rcases ih (fun n' hn' => hA n' (List.mem_cons_of_mem _ hn')) hB with
      ⟨st', hst'⟩ | ⟨c, hc⟩
    · exact Or.inl ⟨st', by simp only [dfs, hlk, if_pos hmem]; exact hst'⟩
    · exact Or.inr ⟨c, by simp only [dfs, hlk, if_pos hmem]; exact hc⟩
  | case4 p n rest st e hlk h1 h2 =>
    intro _ _
    exact Or.inr ⟨e.metadata.name :: st.stack,
      by simp only [dfs, hlk, if_neg h1, if_pos h2]⟩
  | case5 p n rest st e hlk h1 h2 h3 err herr ih =>
    intro hA hB
    obtain ⟨e₀, hlk₀, hreach₀⟩ := hA n (List.mem_cons_self n rest)
    rw [hlk] at hlk₀
    injection hlk₀ with he₀
    rw [← he₀] at hreach₀
    have hcanon : findEntry m e.metadata.name = some e :=
      lookupEntry_canonical hwf hlk
    have hA' : ∀ d ∈ e.metadata.dependencies,
        ∃ e', lookupEntry m d = some e' ∧ Reaches m root e'.metadata.name := by
      intro d hd
      obtain ⟨e', hlk'⟩ := hres e.metadata.name hreach₀ e hcanon d hd
      exact ⟨e', hlk', hreach₀.tail ⟨e, hcanon, d, hd, e', hlk', rfl⟩⟩
    have hB' : ∀ x ∈ entryNames m, x ∉ p.erase e.metadata.name →
        x ∈ st.order ∨ x ∈ e.metadata.name :: st.stack := by
      intro x hx hxe
      by_cases hxeq : x = e.metadata.name
      · exact Or.inr (by rw [hxeq]; exact List.mem_cons_self _ _)
      · have hxp : x ∉ p := by
          intro hc
          exact hxe ((List.mem_erase_of_ne hxeq).mpr hc)
        rcases hB x hx hxp with ho | hs
        · exact Or.inl ho
        · exact Or.inr (List.mem_cons_of_mem _ hs)
    rcases ih hA' hB' with ⟨st', hst'⟩ | ⟨c, hc⟩
    · rw [herr] at hst'
      exact Except.noConfusion hst'
    · rw [herr] at hc
      injection hc with hcc
      exact Or.inr ⟨c, by
        simp only [dfs, hlk, if_neg h1, if_neg h2, dif_pos h3, herr, hcc]⟩
  | case6 p n rest st e hlk h1 h2 h3 st2 hok ih1 ih2 =>
    intro hA hB
    obtain ⟨t1, ht1⟩ := dfs_ok_order_extend m _ _ _ st2 hok
    simp only at ht1
    have hB' : ∀ x ∈ entryNames m, x ∉ p →
        x ∈ st2.order ++ [e.metadata.name] ∨ x ∈ st.stack := by
      intro x hx hxp
      rcases hB x hx hxp with ho | hs
      · exact Or.inl (List.mem_append_left _
          (by rw [ht1]; exact List.mem_append_left _ ho))
      · exact Or.inr hs
    rcases ih2 (fun n' hn' => hA n' (List.mem_cons_of_mem _ hn')) hB' with
      ⟨st', hst'⟩ | ⟨c, hc⟩
    · exact Or.inl ⟨st', by
        simp only [dfs, hlk, if_neg h1, if_neg h2, dif_pos h3, hok]
        exact hst'⟩
    · exact Or.inr ⟨c, by
        simp only [dfs, hlk, if_neg h1, if_neg h2, dif_pos h3, hok]
        exact hc⟩
  | case7 p n rest st e hlk h1 h2 h3 =>
    intro hA hB
    have hmem : e.metadata.name ∈ entryNames m :=
      List.mem_map_of_mem (fun x => x.metadata.name) (lookupEntry_mem hlk)
    rcases hB e.metadata.name hmem h3 with ho | hs
    · exact absurd ho h1
    · exact absurd hs h2

/-! ### Manager frame lemmas -/

theorem find?_map_pred (g : Entry → Entry) (p q : Entry → Bool)
    (l : List Entry) (h : ∀ e, p (g e) = q e) :
    (l.map g).find? p = (l.find? q).map g := by
  induction l with
  | nil => rfl
  | cons a tl ih =>
    simp only [List.map_cons, List.find?]
    rw [h a]
    cases hq : q a
    · simpa [hq] using ih
    · simp [hq]

theorem filterMap_map_congr {β : Type} (g : Entry → Entry)
    (fm : Entry → Option β) (l : List Entry) (h : ∀ a, fm (g a) = fm a) :
    (l.map g).filterMap fm = l.filterMap fm := by
  induction l with
  | nil => rfl
  | cons a tl ih =>
    simp only [List.map_cons, List.filterMap_cons, h a]
    cases fm a
    · exact ih
    · rw [ih]

theorem findEntry_setEntryF (m : Manager) (id : String) (f : Entry → Entry)
    (hf : ∀ e, (f e).metadata.name = e.metadata.name) (id' : String) :
    findEntry (setEntryF m id f) id' =
      (findEntry m id').map
        (fun e => if e.metadata.name == id then f e else e) := by
  unfold findEntry setEntryF
  simp only
  exact find?_map_pred _ _ _ m.entries (by
    intro e
    by_cases hc : e.metadata.name == id
    · simp only [hc, if_pos]
      simp [hf e]
    · simp only [hc, if_neg]
      simp)

theorem findEntry_setEntryF_other (m : Manager) (id : String) (f : Entry → Entry)
    (hf : ∀ e, (f e).metadata.name = e.metadata.name) (id' : String)
    (hne : id' ≠ id) :
    findEntry (setEntryF m id f) id' = findEntry m id' := by
  rw [findEntry_setEntryF m id f hf id']
  cases he : findEntry m id' with
  | none => rfl
  | some e =>
    have : e.metadata.name = id' := (findEntry_mem he).2
    simp [Option.map_some, this, hne]

theorem findEntry_setEntryF_self (m : Manager) (id : String) (f : Entry → Entry)
    (hf : ∀ e, (f e).metadata.name = e.metadata.name) {e : Entry}
    (he : findEntry m id = some e) :
    findEntry (setEntryF m id f) id = some (f e) := by
  rw [findEntry_setEntryF m id f hf id, he]
  have : e.metadata.name = id := (findEntry_mem he).2
  simp [this]

theorem entryNames_setEntryF (m : Manager) (id : String) (f : Entry → Entry)
    (hf : ∀ e, (f e).metadata.name = e.metadata.name) :
    entryNames (setEntryF m id f) = entryNames m := by
  unfold entryNames setEntryF
  simp only [List.map_map]
  refine List.map_congr_left ?_
  intro e _
  by_cases hc : e.metadata.name == id
  · simp only [Function.comp, hc, if_pos]
    exact hf e
  · simp only [Function.comp, hc, if_neg]
    rfl

theorem openHandles_setEntryF (m : Manager) (id : String) (f : Entry → Entry)
    (hm : ∀ e, (f e).module = e.module) :
    openHandles (setEntryF m id f) = openHandles m := by
  unfold openHandles setEntryF
  simp only
  refine filterMap_map_congr _ _ m.entries ?_
  intro a
  by_cases hc : a.metadata.name == id
  · simp [hc, hm a]
  · simp [hc]

theorem stateAt_setState_other (m : Manager) (id : String) (st : LoadState)
    (id' : String) (hne : id' ≠ id) :
    stateAt (setState m id st) id' = stateAt m id' := by
  unfold stateAt setState
  rw [findEntry_setEntryF_other m id (fun e => { e with state := st })
    (fun _ => rfl) id' hne]

theorem stateAt_setState_self (m : Manager) (id : String) (st : LoadState)
    {e : Entry} (he : findEntry m id = some e) :
    stateAt (setState m id st) id = st := by
  unfold stateAt setState
  rw [findEntry_setEntryF_self m id (fun e => { e with state := st })
    (fun _ => rfl) he]

theorem openHandles_setState (m : Manager) (id : String) (st : LoadState) :
    openHandles (setState m id st) = openHandles m :=
  openHandles_setEntryF m id (fun e => { e with state := st }) (fun _ => rfl)

theorem lookupEntry_setEntryF (m : Manager) (id : String) (f : Entry → Entry)
    (hf : ∀ e, (f e).metadata = e.metadata) (n : String) :
    lookupEntry (setEntryF m id f) n =
      (lookupEntry m n).map
        (fun e => if e.metadata.name == id then f e else e) := by
  have hfn : ∀ e, (f e).metadata.name = e.metadata.name := fun e => by rw [hf e]
  set g := fun e : Entry => if e.metadata.name == id then f e else e with hg
  have hgm : ∀ e, (g e).metadata = e.metadata := by
    intro e
    by_cases hc : e.metadata.name = id
    · simp [hg, hc, hf]
    · simp [hg, hc]
  have hentries : (setEntryF m id f).entries = m.entries.map g := rfl
  unfold lookupEntry
  rw [findEntry_setEntryF m id f hfn n]
  cases hfe : findEntry m n with
  | some e => simp [hg]
  | none =>
    simp only [Option.map_none']
    rw [hentries]
    have hflt : (m.entries.map g).filter
        (fun e => e.metadata.aliases.contains n) =
        (m.entries.filter (fun e => e.metadata.aliases.contains n)).map g := by
      rw [List.filter_map]
      congr 1
      apply List.filter_congr
      intro e _
      simp [Function.comp, hgm e]
    rw [hflt]
    have hflt2 : ((m.entries.filter
        (fun e => e.metadata.aliases.contains n)).map g).filter
        (fun e => e.metadata.defaultProviderFor.contains n) =
        ((m.entries.filter (fun e => e.metadata.aliases.contains n)).filter
          (fun e => e.metadata.defaultProviderFor.contains n)).map g := by
      rw [List.filter_map]
      congr 1
      apply List.filter_congr
      intro e _
      simp [Function.comp, hgm e]
    rw [hflt2]
    cases hq : (m.entries.filter
        (fun e => e.metadata.aliases.contains n)).filter
        (fun e => e.metadata.defaultProviderFor.contains n) with
    | nil =>
      simp only [List.map_nil]
      exact List.head?_map g _
    | cons a tl =>
      cases tl with
      | nil => simp
      | cons b tl' =>
        simp only [List.map_cons]
        exact List.head?_map g _

theorem stateAt_setEntryF (m : Manager) (id : String) (f : Entry → Entry)
    (hfn : ∀ e, (f e).metadata.name = e.metadata.name)
    (hfs : ∀ e, (f e).state = e.state) (d : String) :
    stateAt (setEntryF m id f) d = stateAt m d := by
  unfold stateAt
  rw [findEntry_setEntryF m id f hfn d]
  cases hfe : findEntry m d with
  | none => rfl
  | some e =>
    simp only [Option.map_some']
    by_cases hc : e.metadata.name = id
    · simp [hc, hfs e]
    · simp [hc]

theorem stateAt_removeFromDependents (m : Manager) (x : String)
    (ds : List String) (d : String) :
    stateAt (removeFromDependents m x ds) d = stateAt m d := by
  induction ds generalizing m with
  | nil => rfl
  | cons dd ds' ih =>
    show stateAt (removeFromDependents _ x ds') d = _
    rw [ih]
    cases hlk : lookupEntry m dd with
    | none => simp [removeFromDependents, List.foldl_cons, hlk]
    | some de =>
      simp only [removeFromDependents, List.foldl_cons, hlk]
      exact stateAt_setEntryF m de.metadata.name
        (fun de' => { de' with dependents := de'.dependents.erase x })
        (fun _ => rfl) (fun _ => rfl) d

theorem stateAt_registerDependents (m : Manager) (x : String)
    (ds : List String) (d : String) :
    stateAt (registerDependents m x ds) d = stateAt m d := by
  induction ds generalizing m with
  | nil => rfl
  | cons dd ds' ih =>
    show stateAt (registerDependents _ x ds') d = _
    rw [ih]
    cases hlk : lookupEntry m dd with
    | none => simp [registerDependents, List.foldl_cons, hlk]
    | some de =>
      simp only [registerDependents, List.foldl_cons, hlk]
      exact stateAt_setEntryF m de.metadata.name
        (fun de' => { de' with dependents := insertNew x de'.dependents })
        (fun _ => rfl) (fun _ => rfl) d

/-- The per-entry data that no Manager operation may change: the metadata
and the static flag. -/
def entryKey (e : Entry) : Metadata × Bool := (e.metadata, e.isStatic)

/-- The operation-invariant skeleton of a Manager: the sequence of entry
keys and the shadowed-candidates record. -/
def profile (m : Manager) : List (Metadata × Bool) × List Metadata :=
  (m.entries.map entryKey, m.shadowed)

theorem profile_setEntryF (m : Manager) (id : String) (f : Entry → Entry)
    (hf : ∀ e, entryKey (f e) = entryKey e) :
    profile (setEntryF m id f) = profile m := by
  unfold profile setEntryF
  simp only [List.map_map]
  refine congrArg (fun l => (l, m.shadowed)) ?_
  refine List.map_congr_left ?_
  intro e _
  by_cases hc : (e.metadata.name == id) = true
  · simp only [Function.comp, hc, if_pos]
    exact hf e
  · simp only [Function.comp, hc, if_neg]
    rfl

theorem profile_registerDependents (m : Manager) (x : String)
    (ds : List String) : profile (registerDependents m x ds) = profile m := by
  induction ds generalizing m with
  | nil => rfl
  | cons dd ds' ih =>
    show profile (registerDependents _ x ds') = _
    rw [ih]
    cases hlk : lookupEntry m dd with
    | none => simp [registerDependents, List.foldl_cons, hlk]
    | some de =>
      simp only [registerDependents, List.foldl_cons, hlk]
      exact profile_setEntryF m de.metadata.name
        (fun de' => { de' with dependents := insertNew x de'.dependents })
        (fun _ => rfl)

theorem profile_removeFromDependents (m : Manager) (x : String)
    (ds : List String) : profile (removeFromDependents m x ds) = profile m := by
  induction ds generalizing m with
  | nil => rfl
  | cons dd ds' ih =>
    show profile (removeFromDependents _ x ds') = _
    rw [ih]
    cases hlk : lookupEntry m dd with
    | none => simp [removeFromDependents, List.foldl_cons, hlk]
    | some de =>
      simp only [removeFromDependents, List.foldl_cons, hlk]
      exact profile_setEntryF m de.metadata.name
        (fun de' => { de' with dependents := de'.dependents.erase x })
        (fun _ => rfl)

theorem profile_openModule (w : World) (m : Manager) (id : String) (e : Entry)
    {mo : Manager} (h : openModule w m id e = some mo) :
    profile mo = profile m := by
  unfold openModule at h
  by_cases hs : e.isStatic = true
  · rw [if_pos hs] at h
    injection h with h'
    rw [← h']
  · rw [if_neg hs] at h
    by_cases ho : w.openOk id = true
    · rw [if_pos ho] at h
      injection h with h'
      rw [← h']
      have := profile_setEntryF m id
        (fun e' => { e' with module := some m.nextHandle }) (fun _ => rfl)
      unfold profile at this ⊢
      simpa using this
    · rw [if_neg ho] at h
      exact Option.noConfusion h

theorem profile_setState (m : Manager) (id : String) (st : LoadState) :
    profile (setState m id st) = profile m :=
  profile_setEntryF m id (fun e => { e with state := st }) (fun _ => rfl)

theorem profile_finishLoad (m : Manager) (x : String) :
    profile (finishLoad m x) = profile m := by
  unfold finishLoad
  cases hfe : findEntry m x with
  | none => rfl
  | some e =>
    rw [profile_registerDependents, profile_setState]

theorem profile_loadChainGo (w : World) (m0 : Manager) :
    ∀ (order : List String) (mc : Manager), profile mc = profile m0 →
      profile (loadChainGo w m0 mc order).2 = profile m0 := by
  intro order
  induction order with
  | nil =>
    intro mc hmc
    exact hmc
  | cons x rest ih =>
    intro mc hmc
    show profile (loadChainGo w m0 mc (x :: rest)).2 = profile m0
    simp only [loadChainGo]
    cases hfe : findEntry mc x with
    | none => rfl
    | some e =>
      by_cases hl : e.state = .Loaded
      · simp only [if_pos hl]
        exact ih mc hmc
      · simp only [if_neg hl]
        cases ho : openModule w mc x e with
        | none =>
          simp only
          rw [profile_setState]
        | some mo =>
          simp only
          by_cases hi : w.moduleInterface x ≠ m0.expectedInterface
          · rw [if_pos hi]
            rw [profile_setState]
          · rw [if_neg hi]
            by_cases hv : w.moduleVersion x ≠ m0.expectedVersion
            · rw [if_pos hv]
              rw [profile_setState]
            · rw [if_neg hv]
              refine ih (finishLoad mo x) ?_
              rw [profile_finishLoad, profile_openModule w mc x e ho, hmc]

theorem profile_load (w : World) (m : Manager) (name : String) :
    profile (load w m name).2 = profile m := by
  unfold load
  cases hlk : lookupEntry m name with
  | none => rfl
  | some e =>
    by_cases hl : e.state = .Loaded
    · simp only [if_pos hl]
    · simp only [if_neg hl]
      cases hro : resolveOrder m e.metadata.name with
      | error err =>
        simp only
        rw [profile_setState]
      | ok order =>
        simp only
        exact profile_loadChainGo w m order m rfl

theorem profile_unload (w : World) (m : Manager) (name : String) :
    profile (unload w m name).2 = profile m := by
  unfold unload
  cases hlk : lookupEntry m name with
  | none => rfl
  | some e =>
    by_cases h1 : e.state = .NotLoaded
    · simp only [if_pos h1]
    · simp only [if_neg h1]
      by_cases h2 : e.instanceCount > 0 ∨ ∃ d ∈ e.dependents,
          stateAt m d = .Loaded
      · simp only [if_pos h2]
      · simp only [if_neg h2]
        by_cases h3 : e.isStatic = true
        · simp only [if_pos h3]
        · simp only [if_neg h3]
          by_cases h4 : w.finalizeOk e.metadata.name = true
          · simp only [if_pos h4]
            rw [profile_removeFromDependents]
            exact profile_setEntryF m e.metadata.name
              (fun e' => { e' with state := .NotLoaded, module := none })
              (fun _ => rfl)
          · simp only [if_neg h4]
            rw [profile_setState]

theorem profile_step (w : World) (m : Manager) (op : Op) :
    profile (step w m op) = profile m := by
  cases op with
  | loadOp n => exact profile_load w m n
  | unloadOp n => exact profile_unload w m n
  | instantiateOp n =>
    show profile (match instantiate m n with
      | .ok p => p.2 | .error _ => m) = profile m
    unfold instantiate
    cases hlk : lookupEntry m n with
    | none => rfl
    | some e =>
      by_cases hl : e.state = .Loaded
      · simp only [if_pos hl]
        exact profile_setEntryF m e.metadata.name
          (fun e' => { e' with instanceCount := e'.instanceCount + 1 })
          (fun _ => rfl)
      · simp only [if_neg hl]
  | destroyOp n =>
    show profile (match lookupEntry m n with
      | none => m
      | some e => if e.instanceCount > 0
          then destroyInstance m e.metadata.name else m) = profile m
    cases hlk : lookupEntry m n with
    | none => rfl
    | some e =>
      by_cases hc : e.instanceCount > 0
      · simp only [if_pos hc]
        exact profile_setEntryF m e.metadata.name
          (fun e' => { e' with instanceCount := e'.instanceCount - 1 })
          (fun _ => rfl)
      · simp only [if_neg hc]

theorem profile_run (w : World) (m : Manager) (ops : List Op) :
    profile (run w m ops) = profile m := by
  induction ops generalizing m with
  | nil => rfl
  | cons op ops' ih =>
    show profile (run w (step w m op) ops') = profile m
    rw [ih, profile_step]

theorem find?_map_eq_of_map_eq {l₁ l₂ : List Entry}
    (h : l₁.map entryKey = l₂.map entryKey) (p : Entry → Bool)
    (q : Metadata × Bool → Bool) (hpq : ∀ e, p e = q (entryKey e)) :
    (l₁.find? p).map entryKey = (l₂.find? p).map entryKey := by
  induction l₁ generalizing l₂ with
  | nil =>
    cases l₂ with
    | nil => rfl
    | cons b t₂ => exact List.noConfusion h
  | cons a t ih =>
    cases l₂ with
    | nil => exact List.noConfusion h
    | cons b t₂ =>
      simp only [List.map_cons, List.cons.injEq] at h
      obtain ⟨hab, ht⟩ := h
      have hpab : p a = p b := by rw [hpq a, hpq b, hab]
      simp only [List.find?]
      cases hpa : p a
      · rw [← hpab, hpa]
        exact ih ht
      · rw [← hpab, hpa]
        simp [hab]

theorem findEntry_key_of_profile {m m' : Manager}
    (h : profile m' = profile m) (x : String) :
    (findEntry m' x).map entryKey = (findEntry m x).map entryKey := by
  unfold findEntry
  have hl : m'.entries.map entryKey = m.entries.map entryKey := by
    have := congrArg Prod.fst h
    simpa [profile] using this
  exact find?_map_eq_of_map_eq hl _ (fun k => k.1.name == x) (fun e => rfl)

theorem stateAt_setState_ne (m : Manager) (id : String) (st : LoadState)
    (x : String) (hst : st ≠ .NotLoaded) (hm : stateAt m x ≠ .NotLoaded) :
    stateAt (setState m id st) x ≠ .NotLoaded := by
  by_cases hx : x = id
  · subst hx
    cases hfe : findEntry m x with
    | none =>
      unfold stateAt setState
      rw [findEntry_setEntryF m x (fun e => { e with state := st })
        (fun _ => rfl) x, hfe]
      intro hc
      exact LoadState.noConfusion hc
    | some e =>
      rw [stateAt_setState_self m x st hfe]
      exact hst
  · rw [stateAt_setState_other m id st x hx]
    exact hm

theorem stateAt_openModule (w : World) (mc : Manager) (id : String) (e : Entry)
    {mo : Manager} (h : openModule w mc id e = some mo) (d : String) :
    stateAt mo d = stateAt mc d := by
  unfold openModule at h
  by_cases hs : e.isStatic = true
  · rw [if_pos hs] at h
    injection h with h'
    rw [← h']
  · rw [if_neg hs] at h
    by_cases ho : w.openOk id = true
    · rw [if_pos ho] at h
      injection h with h'
      rw [← h']
      show stateAt { setEntryF mc id _ with nextHandle := mc.nextHandle + 1 } d
        = stateAt mc d
      have : stateAt { setEntryF mc id
          (fun e' => { e' with module := some mc.nextHandle }) with
          nextHandle := mc.nextHandle + 1 } d =
          stateAt (setEntryF mc id
            (fun e' => { e' with module := some mc.nextHandle })) d := rfl
      rw [this]
      exact stateAt_setEntryF mc id
        (fun e' => { e' with module := some mc.nextHandle })
        (fun _ => rfl) (fun _ => rfl) d
    · rw [if_neg ho] at h
      exact Option.noConfusion h

theorem stateAt_finishLoad_ne (m : Manager) (x0 x : String)
    (hm : stateAt m x ≠ .NotLoaded) :
    stateAt (finishLoad m x0) x ≠ .NotLoaded := by
  unfold finishLoad
  cases hfe : findEntry m x0 with
  | none => exact hm
  | some e =>
    rw [stateAt_registerDependents]
    refine stateAt_setState_ne m x0 .Loaded x ?_ hm
    intro hc
    exact LoadState.noConfusion hc

theorem loadChainGo_stateAt_ne (w : World) (m0 : Manager) (x : String)
    (hm0 : stateAt m0 x ≠ .NotLoaded) :
    ∀ (order : List String) (mc : Manager), stateAt mc x ≠ .NotLoaded →
      stateAt (loadChainGo w m0 mc order).2 x ≠ .NotLoaded := by
  intro order
  induction order with
  | nil =>
    intro mc hmc
    exact hmc
  | cons x0 rest ih =>
    intro mc hmc
    simp only [loadChainGo]
    cases hfe : findEntry mc x0 with
    | none => exact hm0
    | some e =>
      by_cases hl : e.state = .Loaded
      · simp only [if_pos hl]
        exact ih mc hmc
      · simp only [if_neg hl]
        cases ho : openModule w mc x0 e with
        | none =>
          simp only
          refine stateAt_setState_ne m0 x0 .LoadFailed x ?_ hm0
          intro hc
          exact LoadState.noConfusion hc
        | some mo =>
          simp only
          by_cases hi : w.moduleInterface x0 ≠ m0.expectedInterface
          · rw [if_pos hi]
            refine stateAt_setState_ne m0 x0 .WrongInterface x ?_ hm0
            intro hc
            exact LoadState.noConfusion hc
          · rw [if_neg hi]
            by_cases hv : w.moduleVersion x0 ≠ m0.expectedVersion
            · rw [if_pos hv]
              refine stateAt_setState_ne m0 x0 .WrongVersion x ?_ hm0
              intro hc
              exact LoadState.noConfusion hc
            · rw [if_neg hv]
              refine ih (finishLoad mo x0) ?_
              refine stateAt_finishLoad_ne mo x0 x ?_
              rw [stateAt_openModule w mc x0 e ho x]
              exact hmc

theorem errState_ne_notLoaded (err : ResolveError) :
    errState err ≠ .NotLoaded := by
  cases err <;> (intro hc; exact LoadState.noConfusion hc)

/-- One public operation never moves a static, not-`NotLoaded` entry into
`NotLoaded`. -/
theorem stateAt_step_static (w : World) (m : Manager) (op : Op) (x : String)
    (e : Entry) (hwf : WellFormed m) (hfe : findEntry m x = some e)
    (hstat : e.isStatic = true) (hnl : e.state ≠ .NotLoaded) :
    stateAt (step w m op) x ≠ .NotLoaded := by
  have hx : stateAt m x ≠ .NotLoaded := by
    unfold stateAt
    rw [hfe]
    exact hnl
  cases op with
  | loadOp n =>
    show stateAt (load w m n).2 x ≠ .NotLoaded
    unfold load
    cases hlk : lookupEntry m n with
    | none => exact hx
    | some eu =>
      by_cases hl : eu.state = .Loaded
      · simp only [if_pos hl]
        exact hx
      · simp only [if_neg hl]
        cases hro : resolveOrder m eu.metadata.name with
        | error err =>
          simp only
          exact stateAt_setState_ne m eu.metadata.name (errState err) x
            (errState_ne_notLoaded err) hx
        | ok order =>
          simp only
          exact loadChainGo_stateAt_ne w m x hx order m hx
  | unloadOp n =>
    show stateAt (unload w m n).2 x ≠ .NotLoaded
    unfold unload
    cases hlk : lookupEntry m n with
    | none => exact hx
    | some eu =>
      by_cases h1 : eu.state = .NotLoaded
      · simp only [if_pos h1]
        exact hx
      · simp only [if_neg h1]
        by_cases h2 : eu.instanceCount > 0 ∨ ∃ d ∈ eu.dependents,
            stateAt m d = .Loaded
        · simp only [if_pos h2]
          exact hx
        · simp only [if_neg h2]
          by_cases h3 : eu.isStatic = true
          · simp only [if_pos h3]
            exact hx
          · simp only [if_neg h3]
            by_cases h4 : w.finalizeOk eu.metadata.name = true
            · simp only [if_pos h4]
              rw [stateAt_removeFromDependents]
              have hxne : x ≠ eu.metadata.name := by
                intro hc
                subst hc
                rw [lookupEntry_canonical hwf hlk] at hfe
                injection hfe with hfe'
                exact h3 (by rw [hfe']; exact hstat)
              unfold stateAt
              rw [findEntry_setEntryF_other m eu.metadata.name
                (fun e' => { e' with state := .NotLoaded, module := none })
                (fun _ => rfl) x hxne]
              show stateAt m x ≠ .NotLoaded
              exact hx
            · simp only [if_neg h4]
              refine stateAt_setState_ne m eu.metadata.name .UnloadFailed x
                ?_ hx
              intro hc
              exact LoadState.noConfusion hc
  | instantiateOp n =>
    show stateAt (match instantiate m n with
      | .ok p => p.2 | .error _ => m) x ≠ .NotLoaded
    unfold instantiate
    cases hlk : lookupEntry m n with
    | none => exact hx
    | some eu =>
      by_cases hl : eu.state = .Loaded
      · simp only [if_pos hl]
        rw [stateAt_setEntryF m eu.metadata.name
          (fun e' => { e' with instanceCount := e'.instanceCount + 1 })
          (fun _ => rfl) (fun _ => rfl) x]
        exact hx
      · simp only [if_neg hl]
        exact hx
  | destroyOp n =>
    show stateAt (match lookupEntry m n with
      | none => m
      | some e => if e.instanceCount > 0
          then destroyInstance m e.metadata.name else m) x ≠ .NotLoaded
    cases hlk : lookupEntry m n with
    | none => exact hx
    | some eu =>
      by_cases hc : eu.instanceCount > 0
      · simp only [if_pos hc]
        rw [show destroyInstance m eu.metadata.name =
          setEntryF m eu.metadata.name
            (fun e' => { e' with instanceCount := e'.instanceCount - 1 })
          from rfl]
        rw [stateAt_setEntryF m eu.metadata.name
          (fun e' => { e' with instanceCount := e'.instanceCount - 1 })
          (fun _ => rfl) (fun _ => rfl) x]
        exact hx
      · simp only [if_neg hc]
        exact hx

theorem entryNames_of_profile {m m' : Manager} (h : profile m' = profile m) :
    entryNames m' = entryNames m := by
  have h1 := congrArg Prod.fst h
  simp only [profile] at h1
  unfold entryNames
  have : ∀ mm : Manager, mm.entries.map (fun e => e.metadata.name) =
      (mm.entries.map entryKey).map (fun k => k.1.name) := by
    intro mm
    rw [List.map_map]
    rfl
  rw [this m', this m, h1]

/-! ### Resolver top-level properties -/

theorem resolveOrder_props (m : Manager) (hwf : WellFormed m) (rootId : String)
    {l : List String} (h : resolveOrder m rootId = .ok l) :
    l.Nodup ∧ GoodOrder m l ∧ ∀ y ∈ l, InClosure m rootId y := by
  unfold resolveOrder at h
  cases hd : dfs m (entryNames m) [rootId] ⟨[], []⟩ with
  | error err =>
    rw [hd] at h
    exact Except.noConfusion h
  | ok st =>
    rw [hd] at h
    injection h with hl
    subst hl
    refine ⟨dfs_ok_nodup m _ _ _ st hd List.nodup_nil, ?_, ?_⟩
    · refine dfs_ok_good m hwf _ _ _ st hd ?_
      intro pre x suf heq
      exfalso
      have := congrArg List.length heq
      simp at this
      omega
    · intro y hy
      rcases dfs_ok_new_reachable m hwf _ _ _ st hd y hy with hmem | ⟨n, hn, e, hlk, hr⟩
      · cases hmem
      · have : n = rootId := by simpa using hn
        subst this
        exact ⟨e, hlk, hr⟩

theorem acyclic_of_no_edge (m : Manager) (h : ∀ x y, ¬ DependsOn m x y) :
    Acyclic m := by
  intro x hx
  cases hx with
  | single h1 => exact h _ _ h1
  | tail h1 h2 => exact h _ _ h2

theorem resolvableFrom_of_all (m : Manager) (root : String)
    (h : ∀ e ∈ m.entries, ∀ d ∈ e.metadata.dependencies,
      (lookupEntry m d).isSome) : ResolvableFrom m root := by
  intro y _ e he d hd
  exact Option.isSome_iff_exists.mp (h e (findEntry_mem he).1 d hd)

/-- C1: for every wellformed registry whose dependency graph is acyclic and
every root entry whose transitive dependencies all resolve,
`resolveOrder root` succeeds with a duplicate-free list containing the root
in which the canonical name of every dependency of every listed entry
occurs strictly before that entry; the traversal visits dependencies in
declaration order, so the result is a deterministic function of the
registry. -/
theorem claim_c1_resolve_order (m : Manager) (root : String) (e0 : Entry)
    (hwf : WellFormed m) (hroot : findEntry m root = some e0)
    (hres : ResolvableFrom m root) (hacyc : Acyclic m) :
    ∃ l, resolveOrder m root = .ok l ∧ l.Nodup ∧ root ∈ l ∧ GoodOrder m l := by
  have hname : e0.metadata.name = root := (findEntry_mem hroot).2
  have hlkroot : lookupEntry m root = some e0 := by
    unfold lookupEntry
    rw [hroot]
  have hA : ∀ n ∈ [root], ∃ e, lookupEntry m n = some e ∧
      Reaches m root e.metadata.name := by
    intro n hn
    have hn' : n = root := by simpa using hn
    subst hn'
    refine ⟨e0, hlkroot, ?_⟩
    rw [hname]
    exact Relation.ReflTransGen.refl
  have hB : ∀ x ∈ entryNames m, x ∉ entryNames m →
      x ∈ (⟨[], []⟩ : ResolveState).order ∨ x ∈ (⟨[], []⟩ : ResolveState).stack :=
    fun x hx hnx => absurd hx hnx
  rcases dfs_ok_or_cyclic m hwf root hres (entryNames m) [root] ⟨[], []⟩ hA hB
    with ⟨st', hok⟩ | ⟨c, hcyc⟩
  · refine ⟨st'.order, ?_, ?_, ?_, ?_⟩
    · unfold resolveOrder
      rw [hok]
    · exact dfs_ok_nodup m _ _ _ st' hok List.nodup_nil
    · have := dfs_ok_names_covered m _ _ _ st' hok root (by simp) e0 hlkroot
      rw [hname] at this
      exact this
    · refine dfs_ok_good m hwf _ _ _ st' hok ?_
      intro pre x suf heq
      exfalso
      have := congrArg List.length heq
      simp at this
      omega
  · exfalso
    obtain ⟨x, hx⟩ := dfs_cyclic_has_cycle m hwf _ _ _ c hcyc (by simp)
      (by intro n hn e hlk hh t hst; simp at hst)
    exact hacyc x hx

theorem index_lt_of_split {l p s : List String} {a b : String}
    (hnd : l.Nodup) (heq : l = p ++ a :: s) (hb : b ∈ p) :
    l.indexOf b < l.indexOf a := by
  subst heq
  have hna : a ∉ p := by
    rcases List.nodup_append.mp hnd with ⟨_, _, hdisj⟩
    intro hc
    exact hdisj hc (List.mem_cons_self a s)
  rw [List.indexOf_append_of_mem hb, List.indexOf_append_of_not_mem hna,
    List.indexOf_cons_self]
  have := List.indexOf_lt_length.mpr hb
  omega

/-- A dependency-respecting order cannot contain two entries that (through
resolving dependency names) each depend on the other. -/
theorem goodOrder_no_mutual {m : Manager} {l : List String} (hnd : l.Nodup)
    (hg : GoodOrder m l) {a : String} {ea eb : Entry}
    (hfa : findEntry m a = some ea)
    (hfb : findEntry m eb.metadata.name = some eb)
    (hab : ∃ d ∈ ea.metadata.dependencies, lookupEntry m d = some eb)
    (hba : ∃ d ∈ eb.metadata.dependencies, lookupEntry m d = some ea)
    (haml : a ∈ l) : False := by
  obtain ⟨pA, sA, hA⟩ := List.append_of_mem haml
  obtain ⟨d1, hd1, hlk1⟩ := hab
  have hbpre : eb.metadata.name ∈ pA := hg pA a sA hA ea hfa d1 hd1 eb hlk1
  have hbml : eb.metadata.name ∈ l := by
    rw [hA]
    exact List.mem_append_left _ hbpre
  obtain ⟨pB, sB, hB⟩ := List.append_of_mem hbml
  obtain ⟨d2, hd2, hlk2⟩ := hba
  have hapre : ea.metadata.name ∈ pB :=
    hg pB eb.metadata.name sB hB eb hfb d2 hd2 ea hlk2
  have hnamea : ea.metadata.name = a := (findEntry_mem hfa).2
  rw [hnamea] at hapre
  have h1 := index_lt_of_split hnd hA hbpre
  have h2 := index_lt_of_split hnd hB hapre
  omega

/-- C3 (amended): in a wellformed registry where entry A (not already
`Loaded`, with all its transitive dependency names resolvable) and entry B
resolve each other as dependencies (a cycle A→B→A), `load(A)` fails with
`CyclicDependency`; afterwards A's state is `CyclicDependency` (the
resolver-failure state recorded on the requested entry, per §4.3) and B
keeps exactly its previous state (`NotLoaded` if it was `NotLoaded`). -/
theorem claim_c3_cyclic_load (w : World) (m : Manager) (nameA : String)
    (eA eB : Entry) (hwf : WellFormed m)
    (hlkA : lookupEntry m nameA = some eA)
    (hAB : ∃ d ∈ eA.metadata.dependencies, lookupEntry m d = some eB)
    (hBA : ∃ d ∈ eB.metadata.dependencies, lookupEntry m d = some eA)
    (hne : eB.metadata.name ≠ eA.metadata.name)
    (hnl : ¬ eA.state = .Loaded)
    (hres : ResolvableFrom m eA.metadata.name) :
    (load w m nameA).1 = .CyclicDependency ∧
    stateAt (load w m nameA).2 eA.metadata.name = .CyclicDependency ∧
    stateAt (load w m nameA).2 eB.metadata.name = eB.state := by
  have hfa : findEntry m eA.metadata.name = some eA :=
    lookupEntry_canonical hwf hlkA
  obtain ⟨dB, hdB, hlkB⟩ := hAB
  have hfb : findEntry m eB.metadata.name = some eB :=
    lookupEntry_canonical hwf hlkB
  have hlkroot : lookupEntry m eA.metadata.name = some eA := by
    unfold lookupEntry
    rw [hfa]
  have hA' : ∀ n ∈ [eA.metadata.name], ∃ e, lookupEntry m n = some e ∧
      Reaches m eA.metadata.name e.metadata.name := by
    intro n hn
    have hn' : n = eA.metadata.name := by simpa using hn
    subst hn'
    exact ⟨eA, hlkroot, Relation.ReflTransGen.refl⟩
  have hB' : ∀ x ∈ entryNames m, x ∉ entryNames m →
      x ∈ (⟨[], []⟩ : ResolveState).order ∨
        x ∈ (⟨[], []⟩ : ResolveState).stack :=
    fun x hx hnx => absurd hx hnx
  obtain ⟨c, hro⟩ : ∃ c, resolveOrder m eA.metadata.name = .error (.cyclic c) := by
    rcases dfs_ok_or_cyclic m hwf eA.metadata.name hres (entryNames m)
        [eA.metadata.name] ⟨[], []⟩ hA' hB' with ⟨st', hok⟩ | ⟨c, hc⟩
    · exfalso
      have hnd : st'.order.Nodup := dfs_ok_nodup m _ _ _ st' hok List.nodup_nil
      have hg : GoodOrder m st'.order := by
        refine dfs_ok_good m hwf _ _ _ st' hok ?_
        intro pre x suf heq
        exfalso
        have := congrArg List.length heq
        simp at this
        omega
      have haml : eA.metadata.name ∈ st'.order :=
        dfs_ok_names_covered m _ _ _ st' hok eA.metadata.name (by simp) eA hlkroot
      exact goodOrder_no_mutual hnd hg hfa hfb ⟨dB, hdB, hlkB⟩ hBA haml
    · exact ⟨c, by unfold resolveOrder; rw [hc]⟩
  have hload : load w m nameA =
      (.CyclicDependency, setState m eA.metadata.name .CyclicDependency) := by
    simp only [load, hlkA, if_neg hnl, hro, errState]
  rw [hload]
  refine ⟨rfl, ?_, ?_⟩
  · exact stateAt_setState_self m eA.metadata.name .CyclicDependency hfa
  · rw [stateAt_setState_other m eA.metadata.name .CyclicDependency
      eB.metadata.name hne]
    unfold stateAt
    rw [hfb]

/-- A one-plugin metadata fixture with no dependencies. -/
def mdSimple (n : String) (ds : List String) : Metadata :=
  { name := n, interface := "I", version := 1, dependencies := ds,
    aliases := [], defaultProviderFor := [] }

/-- A World in which every open succeeds, every module reports interface
"I" and version 1, and finalize always succeeds. -/
def wOK : World :=
  { openOk := fun _ => true, moduleInterface := fun _ => "I",
    moduleVersion := fun _ => 1, finalizeOk := fun _ => true }

/-- C1 witness: the single-plugin registry (one entry `Dog`, no
dependencies) is wellformed, resolvable and acyclic, and the theorem
applies to it. -/
theorem claim_c1_resolve_order_witness :
    ∃ l, resolveOrder (mkManager [] [mdSimple "Dog" []] "I" 1) "Dog" = .ok l ∧
      l.Nodup ∧ "Dog" ∈ l ∧
      GoodOrder (mkManager [] [mdSimple "Dog" []] "I" 1) l := by
  have hnoedge : ∀ x y, ¬ DependsOn (mkManager [] [mdSimple "Dog" []] "I" 1) x y := by
    intro x y ⟨e, hfind, d, hd, rest⟩
    have hmem := (findEntry_mem hfind).1
    have he : e = freshEntry (mdSimple "Dog" []) none false := by
      simpa [mkManager, addDynamic, mdSimple] using hmem
    rw [he] at hd
    simp [freshEntry, mdSimple] at hd
  exact claim_c1_resolve_order (mkManager [] [mdSimple "Dog" []] "I" 1) "Dog"
    (freshEntry (mdSimple "Dog" []) none false)
    (by unfold WellFormed; decide)
    (by rfl)
    (resolvableFrom_of_all _ _ (by decide))
    (acyclic_of_no_edge _ hnoedge)

/-- The two-plugin registry with the mutual dependency cycle A→B→A. -/
def mCycle : Manager :=
  mkManager [] [mdSimple "A" ["B"], mdSimple "B" ["A"]] "I" 1

/-- C3 counterexample: on the registry with the cycle A→B→A, `load(A)`
returns `CyclicDependency` as the claim says, but afterwards A is in state
`CyclicDependency` — not `NotLoaded` as the claim asserts (§4.3's "set this
Entry's state to the corresponding failure state" wins over §8's wording).
B does remain `NotLoaded`. -/
theorem claim_c3_counterexample :
    (load wOK mCycle "A").1 = .CyclicDependency
    ∧ stateAt (load wOK mCycle "A").2 "A" = .CyclicDependency
    ∧ stateAt (load wOK mCycle "A").2 "B" = .NotLoaded
    ∧ (LoadState.CyclicDependency ≠ LoadState.NotLoaded) := by
  have h1 : (load wOK mCycle "A").1 = .CyclicDependency := by
    simp [load, wOK, mCycle, mkManager, addDynamic, mdSimple, freshEntry,
      lookupEntry, findEntry, resolveOrder, dfs, entryNames, errState]
  have h2 : stateAt (load wOK mCycle "A").2 "A" = .CyclicDependency := by
    simp [load, wOK, mCycle, mkManager, addDynamic, mdSimple, freshEntry,
      lookupEntry, findEntry, resolveOrder, dfs, entryNames, errState,
      setState, setEntryF, stateAt]
  have h3 : stateAt (load wOK mCycle "A").2 "B" = .NotLoaded := by
    simp [load, wOK, mCycle, mkManager, addDynamic, mdSimple, freshEntry,
      lookupEntry, findEntry, resolveOrder, dfs, entryNames, errState,
      setState, setEntryF, stateAt]
  exact ⟨h1, h2, h3, by decide⟩

/-- C3 witness: the amended theorem applied to the concrete cycle A→B→A,
with both entries initially `NotLoaded`. -/
theorem claim_c3_cyclic_load_witness :
    (load wOK mCycle "A").1 = .CyclicDependency ∧
    stateAt (load wOK mCycle "A").2 "A" = .CyclicDependency ∧
    stateAt (load wOK mCycle "A").2 "B" = .NotLoaded := by
  have h := claim_c3_cyclic_load wOK mCycle "A"
    (freshEntry (mdSimple "A" ["B"]) none false)
    (freshEntry (mdSimple "B" ["A"]) none false)
    (by unfold WellFormed; decide)
    (by decide)
    ⟨"B", by decide, by decide⟩
    ⟨"A", by decide, by decide⟩
    (by decide)
    (by decide)
    (resolvableFrom_of_all _ _ (by decide))
  exact ⟨h.1, h.2.1, h.2.2⟩

/-- C7: `load(name)` is idempotent on loaded entries: if the name resolves
to an entry already in state `Loaded`, `load` returns `Loaded` immediately
and the Manager — all entries' states, module handles and reference
counts — is unchanged. -/
theorem claim_c7_load_idempotent (w : World) (m : Manager) (name : String)
    (e : Entry) (hlk : lookupEntry m name = some e)
    (hst : e.state = .Loaded) :
    load w m name = (.Loaded, m) := by
  simp only [load, hlk, if_pos hst]

/-- A directly-built registry whose single entry `Dog` is `Loaded` with
handle 0 and one live instance. -/
def eDogLoaded (count : Nat) : Entry :=
  { metadata := mdSimple "Dog" [], state := .Loaded, module := some 0,
    dependents := [], instanceCount := count, isStatic := false }

/-- One-entry manager with `Dog` loaded and `count` live instances. -/
def mDogLoaded (count : Nat) : Manager :=
  { entries := [eDogLoaded count], shadowed := [], expectedInterface := "I",
    expectedVersion := 1, nextHandle := 1 }

/-- C7 witness: re-loading an already-loaded entry returns `Loaded` and
leaves the manager untouched. -/
theorem claim_c7_load_idempotent_witness :
    load wOK (mDogLoaded 0) "Dog" = (.Loaded, mDogLoaded 0) :=
  claim_c7_load_idempotent wOK (mDogLoaded 0) "Dog" (eDogLoaded 0)
    (by decide) (by decide)

/-- C4: unload of a loaded entry that has live instances or a `Loaded`
dependent returns `Required` and leaves the Manager — in particular that
entry's `Loaded` state and module handle — completely unchanged. -/
theorem claim_c4_unload_required (w : World) (m : Manager) (name : String)
    (e : Entry) (hlk : lookupEntry m name = some e)
    (hst : e.state = .Loaded)
    (hreq : e.instanceCount > 0 ∨ ∃ d ∈ e.dependents, stateAt m d = .Loaded) :
    unload w m name = (.Required, m) := by
  have hnn : ¬ e.state = .NotLoaded := by
    rw [hst]
    intro hc
    exact LoadState.noConfusion hc
  simp only [unload, hlk, if_neg hnn, if_pos hreq]

/-- C4 witness: unloading the loaded `Dog` entry while it has one live
instance returns `Required` and changes nothing. -/
theorem claim_c4_unload_required_witness :
    unload wOK (mDogLoaded 1) "Dog" = (.Required, mDogLoaded 1) :=
  claim_c4_unload_required wOK (mDogLoaded 1) "Dog" (eDogLoaded 1)
    (by decide) (by decide) (Or.inl (by decide))

/-- C5 (amended): for a non-static loaded plugin X with no loaded
dependents, *no other live instances* and a succeeding finalize hook:
after `instantiate(X)` succeeds, `unload(X)` returns `Required` and changes
nothing; after the returned Instance is destroyed (decrementing the count
by one and triggering nothing else), a subsequent `unload(X)` returns
`NotLoaded` and X's state becomes `NotLoaded`. -/
theorem claim_c5_instance_lifecycle (w : World) (m : Manager) (name : String)
    (e : Entry) (hfe : findEntry m name = some e)
    (hst : e.state = .Loaded) (hstatic : e.isStatic = false)
    (hcount : e.instanceCount = 0)
    (hdeps : ∀ d ∈ e.dependents, ¬ stateAt m d = .Loaded)
    (hfin : w.finalizeOk e.metadata.name = true) :
    ∃ m1, instantiate m name = .ok (e.metadata.name, m1) ∧
      unload w m1 name = (.Required, m1) ∧
      (unload w (destroyInstance m1 e.metadata.name) name).1 = .NotLoaded ∧
      stateAt (unload w (destroyInstance m1 e.metadata.name) name).2
        e.metadata.name = .NotLoaded := by
  have hname : e.metadata.name = name := (findEntry_mem hfe).2
  rw [hname]
  rw [hname] at hfin
  have hlk : lookupEntry m name = some e := by
    unfold lookupEntry
    rw [hfe]
  set fBump := fun e' : Entry => { e' with instanceCount := e'.instanceCount + 1 }
    with hfBump
  set m1 := setEntryF m name fBump with hm1
  have hinst : instantiate m name = .ok (name, m1) := by
    simp only [instantiate, hlk, if_pos hst, hname, hm1]
  have hfe1 : findEntry m1 name = some (fBump e) := by
    rw [hm1]
    exact findEntry_setEntryF_self m name fBump (fun _ => rfl) hfe
  have hlk1 : lookupEntry m1 name = some (fBump e) := by
    unfold lookupEntry
    rw [hfe1]
  have hnn1 : ¬ (fBump e).state = .NotLoaded := by
    simp only [hfBump, hst]
    intro hc
    exact LoadState.noConfusion hc
  have hreq1 : (fBump e).instanceCount > 0 ∨
      ∃ d ∈ (fBump e).dependents, stateAt m1 d = .Loaded :=
    Or.inl (by simp [hfBump])
  have hu1 : unload w m1 name = (.Required, m1) := by
    simp only [unload, hlk1, if_neg hnn1, if_pos hreq1]
  set fDec := fun e' : Entry =>
    { e' with instanceCount := e'.instanceCount - 1 } with hfDec
  have hm2 : destroyInstance m1 name = setEntryF m1 name fDec := rfl
  have hfe2 : findEntry (destroyInstance m1 name) name =
      some (fDec (fBump e)) := by
    rw [hm2]
    exact findEntry_setEntryF_self m1 name fDec (fun _ => rfl) hfe1
  have hlk2 : lookupEntry (destroyInstance m1 name) name =
      some (fDec (fBump e)) := by
    unfold lookupEntry
    rw [hfe2]
  have hnn2 : ¬ (fDec (fBump e)).state = .NotLoaded := by
    simp only [hfDec, hfBump, hst]
    intro hc
    exact LoadState.noConfusion hc
  have hstatesame : ∀ d, stateAt (destroyInstance m1 name) d = stateAt m d := by
    intro d
    rw [hm2]
    rw [stateAt_setEntryF m1 name fDec (fun _ => rfl) (fun _ => rfl) d]
    rw [hm1]
    exact stateAt_setEntryF m name fBump (fun _ => rfl) (fun _ => rfl) d
  have hreq2 : ¬ ((fDec (fBump e)).instanceCount > 0 ∨
      ∃ d ∈ (fDec (fBump e)).dependents,
        stateAt (destroyInstance m1 name) d = .Loaded) := by
    intro hc
    rcases hc with hcnt | ⟨d, hd, hds⟩
    · simp [hfDec, hfBump, hcount] at hcnt
    · have hd' : d ∈ e.dependents := hd
      rw [hstatesame d] at hds
      exact hdeps d hd' hds
  have hnst : ¬ ((fDec (fBump e)).isStatic = true) := by
    simp [hfDec, hfBump, hstatic]
  have hfin2 : w.finalizeOk (fDec (fBump e)).metadata.name = true := by
    show w.finalizeOk e.metadata.name = true
    rw [hname]
    exact hfin
  have hu2 : unload w (destroyInstance m1 name) name =
      (.NotLoaded,
        removeFromDependents
          (setEntryF (destroyInstance m1 name)
            (fDec (fBump e)).metadata.name
            (fun e' => { e' with state := .NotLoaded, module := none }))
          (fDec (fBump e)).metadata.name
          (fDec (fBump e)).metadata.dependencies) := by
    simp only [unload, hlk2, if_neg hnn2, if_neg hreq2, if_neg hnst,
      if_pos hfin2]
  refine ⟨m1, hinst, hu1, ?_, ?_⟩
  · rw [hu2]
  · rw [hu2]
    show stateAt (removeFromDependents _ _ _) name = .NotLoaded
    rw [stateAt_removeFromDependents]
    unfold stateAt
    have : (fDec (fBump e)).metadata.name = name := hname
    rw [this]
    rw [findEntry_setEntryF_self (destroyInstance m1 name) name
      (fun e' => { e' with state := .NotLoaded, module := none })
      (fun _ => rfl) hfe2]

theorem loadChainGo_fail (w : World) (m0 : Manager) :
    ∀ (order : List String) (mc : Manager),
      (loadChainGo w m0 mc order).1 ≠ .Loaded →
      (loadChainGo w m0 mc order).2 = m0 ∨
      ∃ x ∈ order, (loadChainGo w m0 mc order).2 =
          setState m0 x (loadChainGo w m0 mc order).1 ∧
        (loadChainGo w m0 mc order).1 ≠ .Loading ∧
        (loadChainGo w m0 mc order).1 ≠ .Unloading ∧
        (loadChainGo w m0 mc order).1 ≠ .NotLoaded := by
  intro order
  induction order with
  | nil =>
    intro mc h
    exact absurd rfl h
  | cons x0 rest ih =>
    intro mc h
    simp only [loadChainGo] at h ⊢
    cases hfe : findEntry mc x0 with
    | none => exact Or.inl rfl
    | some e =>
      rw [hfe] at h
      by_cases hl : e.state = .Loaded
      · simp only [if_pos hl] at h ⊢
        rcases ih mc h with h1 | ⟨x, hx, hrest⟩
        · exact Or.inl h1
        · exact Or.inr ⟨x, List.mem_cons_of_mem _ hx, hrest⟩
      · simp only [if_neg hl] at h ⊢
        cases ho : openModule w mc x0 e with
        | none =>
          refine Or.inr ⟨x0, List.mem_cons_self _ _, rfl, ?_, ?_, ?_⟩ <;>
            (intro hc; exact LoadState.noConfusion hc)
        | some mo =>
          rw [ho] at h
          simp only at h ⊢
          by_cases hi : w.moduleInterface x0 ≠ m0.expectedInterface
          · rw [if_pos hi]
            refine Or.inr ⟨x0, List.mem_cons_self _ _, rfl, ?_, ?_, ?_⟩ <;>
              (intro hc; exact LoadState.noConfusion hc)
          · rw [if_neg hi] at h ⊢
            by_cases hv : w.moduleVersion x0 ≠ m0.expectedVersion
            · rw [if_pos hv]
              refine Or.inr ⟨x0, List.mem_cons_self _ _, rfl, ?_, ?_, ?_⟩ <;>
                (intro hc; exact LoadState.noConfusion hc)
            · rw [if_neg hv] at h ⊢
              rcases ih (finishLoad mo x0) h with h1 | ⟨x, hx, hrest⟩
              · exact Or.inl h1
              · exact Or.inr ⟨x, List.mem_cons_of_mem _ hx, hrest⟩

theorem load_fail (w : World) (m : Manager) (name : String)
    (hwf : WellFormed m) (h : (load w m name).1 ≠ .Loaded) :
    (load w m name).2 = m ∨
    ∃ x, InClosure m name x ∧
      (load w m name).2 = setState m x (load w m name).1 ∧
      (load w m name).1 ≠ .Loading ∧ (load w m name).1 ≠ .Unloading ∧
      (load w m name).1 ≠ .NotLoaded := by
  unfold load at h ⊢
  cases hlk : lookupEntry m name with
  | none => exact Or.inl rfl
  | some e =>
    rw [hlk] at h
    by_cases hl : e.state = .Loaded
    · simp only [if_pos hl] at h
      exact absurd rfl h
    · simp only [if_neg hl] at h ⊢
      cases hro : resolveOrder m e.metadata.name with
      | error err =>
        refine Or.inr ⟨e.metadata.name,
          ⟨e, hlk, Relation.ReflTransGen.refl⟩, rfl, ?_, ?_, ?_⟩ <;>
          (cases err <;> (intro hc; exact LoadState.noConfusion hc))
      | ok order =>
        rw [hro] at h
        simp only at h ⊢
        rcases loadChainGo_fail w m order m h with h1 | ⟨x, hx, hrest⟩
        · exact Or.inl h1
        · refine Or.inr ⟨x, ?_, hrest⟩
          have hcl := (resolveOrder_props m hwf e.metadata.name hro).2.2 x hx
          obtain ⟨e', hlk', hr⟩ := hcl
          have hfe : findEntry m e.metadata.name = some e :=
            lookupEntry_canonical hwf hlk
          have : lookupEntry m e.metadata.name = some e := by
            unfold lookupEntry
            rw [hfe]
          rw [this] at hlk'
          injection hlk' with he'
          subst he'
          exact ⟨e, hlk, hr⟩

/-- C2: a failing `load` (result not `Loaded`) or failing `unload` (result
not `NotLoaded`) is atomic: the set of open module handles is exactly what
it was before the call, no entry is left in a transitional `Loading` or
`Unloading` state that it was not already in, and every entry outside the
requested plugin's transitive dependency closure is completely unchanged
(in particular every unrelated already-`Loaded` entry keeps its state). -/
theorem claim_c2_atomic_failure (w : World) (m : Manager) (name : String)
    (hwf : WellFormed m) :
    ((load w m name).1 ≠ .Loaded →
      openHandles (load w m name).2 = openHandles m ∧
      (∀ id, stateAt (load w m name).2 id = .Loading ∨
          stateAt (load w m name).2 id = .Unloading →
        stateAt (load w m name).2 id = stateAt m id) ∧
      (∀ id, ¬ InClosure m name id →
        findEntry (load w m name).2 id = findEntry m id)) ∧
    ((unload w m name).1 ≠ .NotLoaded →
      openHandles (unload w m name).2 = openHandles m ∧
      (∀ id, stateAt (unload w m name).2 id = .Loading ∨
          stateAt (unload w m name).2 id = .Unloading →
        stateAt (unload w m name).2 id = stateAt m id) ∧
      (∀ id, ¬ InClosure m name id →
        findEntry (unload w m name).2 id = findEntry m id)) := by
  constructor
  · intro h
    rcases load_fail w m name hwf h with h1 | ⟨x, hxcl, heq, hnl, hnu, _⟩
    · rw [h1]
      exact ⟨rfl, fun id _ => rfl, fun id _ => rfl⟩
    · rw [heq]
      refine ⟨openHandles_setState m x _, ?_, ?_⟩
      · intro id hid
        by_cases hx : id = x
        · subst hx
          exfalso
          cases hfe : findEntry m id with
          | none =>
            unfold stateAt setState at hid
            rw [findEntry_setEntryF m id
              (fun e => { e with state := (load w m name).1 })
              (fun _ => rfl) id, hfe] at hid
            rcases hid with hc | hc <;> exact LoadState.noConfusion hc
          | some e =>
            rw [stateAt_setState_self m id _ hfe] at hid
            rcases hid with hc | hc
            · exact hnl hc
            · exact hnu hc
        · exact stateAt_setState_other m x _ id hx
      · intro id hncl
        have hx : id ≠ x := fun hc => hncl (hc ▸ hxcl)
        exact findEntry_setEntryF_other m x
          (fun e => { e with state := (load w m name).1 })
          (fun _ => rfl) id hx
  · intro h
    unfold unload at h ⊢
    cases hlk : lookupEntry m name with
    | none => refine ⟨rfl, fun i _ => rfl, fun i _ => rfl⟩
    | some e =>
      rw [hlk] at h
      by_cases h1 : e.state = .NotLoaded
      · simp only [if_pos h1] at h
        exact absurd rfl h
      · simp only [if_neg h1] at h ⊢
        by_cases h2 : e.instanceCount > 0 ∨ ∃ d ∈ e.dependents,
            stateAt m d = .Loaded
        · rw [if_pos h2]
          refine ⟨rfl, fun i _ => rfl, fun i _ => rfl⟩
        · simp only [if_neg h2] at h ⊢
          by_cases h3 : e.isStatic = true
          · rw [if_pos h3]
            refine ⟨rfl, fun i _ => rfl, fun i _ => rfl⟩
          · simp only [if_neg h3] at h ⊢
            by_cases h4 : w.finalizeOk e.metadata.name = true
            · simp only [if_pos h4] at h
              exact absurd rfl h
            · simp only [if_neg h4]
              refine ⟨openHandles_setState m e.metadata.name _, ?_, ?_⟩
              · intro id hid
                by_cases hx : id = e.metadata.name
                · subst hx
                  exfalso
                  cases hfe : findEntry m e.metadata.name with
                  | none =>
                    unfold stateAt setState at hid
                    rw [findEntry_setEntryF m e.metadata.name
                      (fun e' => { e' with state := .UnloadFailed })
                      (fun _ => rfl) e.metadata.name, hfe] at hid
                    rcases hid with hc | hc <;> exact LoadState.noConfusion hc
                  | some e' =>
                    rw [stateAt_setState_self m e.metadata.name _ hfe] at hid
                    rcases hid with hc | hc <;> exact LoadState.noConfusion hc
                · exact stateAt_setState_other m e.metadata.name _ id hx
              · intro id hncl
                have hx : id ≠ e.metadata.name := by
                  intro hc
                  exact hncl (hc ▸ ⟨e, hlk, Relation.ReflTransGen.refl⟩)
                exact findEntry_setEntryF_other m e.metadata.name
                  (fun e' => { e' with state := .UnloadFailed })
                  (fun _ => rfl) id hx

theorem insertNew_idem (x : String) (l : List String) :
    insertNew x (insertNew x l) = insertNew x l := by
  unfold insertNew
  by_cases h : x ∈ l
  · simp [h]
  · simp [h]

theorem insertNew_length_of_not_mem (x : String) (l : List String)
    (h : x ∉ l) : (insertNew x l).length = l.length + 1 := by
  unfold insertNew
  simp [h]

theorem findEntry_map_setEntryF {β : Type} (sel : Entry → β) (m : Manager)
    (id : String) (f : Entry → Entry)
    (hfn : ∀ e, (f e).metadata.name = e.metadata.name)
    (hsel : ∀ e, sel (f e) = sel e) (q : String) :
    (findEntry (setEntryF m id f) q).map sel = (findEntry m q).map sel := by
  rw [findEntry_setEntryF m id f hfn q]
  cases hfe : findEntry m q with
  | none => rfl
  | some e =>
    simp only [Option.map_some']
    by_cases hc : e.metadata.name = id
    · simp [hc, hsel e]
    · simp [hc]

theorem lookupEntry_name_setEntryF (m : Manager) (id : String)
    (f : Entry → Entry) (hf : ∀ e, (f e).metadata = e.metadata) (n : String) :
    (lookupEntry (setEntryF m id f) n).map (fun e => e.metadata.name) =
      (lookupEntry m n).map (fun e => e.metadata.name) := by
  rw [lookupEntry_setEntryF m id f hf n]
  cases hlk : lookupEntry m n with
  | none => rfl
  | some e =>
    simp only [Option.map_some']
    by_cases hc : e.metadata.name = id
    · simp [hc, hf e]
    · simp [hc]

theorem loadChainGo_skip_loaded (w : World) (m0 : Manager) :
    ∀ (l1 l2 : List String) (mc : Manager),
      (∀ x ∈ l1, stateAt mc x = .Loaded) →
      loadChainGo w m0 mc (l1 ++ l2) = loadChainGo w m0 mc l2 := by
  intro l1
  induction l1 with
  | nil =>
    intro l2 mc _
    rfl
  | cons x0 rest ih =>
    intro l2 mc hall
    have hx0 : stateAt mc x0 = .Loaded := hall x0 (List.mem_cons_self _ _)
    cases hfe : findEntry mc x0 with
    | none =>
      exfalso
      unfold stateAt at hx0
      rw [hfe] at hx0
      exact LoadState.noConfusion hx0
    | some e =>
      have hl : e.state = .Loaded := by
        unfold stateAt at hx0
        rw [hfe] at hx0
        exact hx0
      show loadChainGo w m0 mc (x0 :: (rest ++ l2)) = _
      simp only [loadChainGo, hfe, if_pos hl]
      exact ih l2 mc (fun x hx => hall x (List.mem_cons_of_mem _ hx))

theorem resolveOrder_root_last (m : Manager) (root : String) (e0 : Entry)
    (hfr : findEntry m root = some e0) {l : List String}
    (h : resolveOrder m root = .ok l) : ∃ l', l = l' ++ [root] := by
  have hname : e0.metadata.name = root := (findEntry_mem hfr).2
  have hlk : lookupEntry m root = some e0 := by
    unfold lookupEntry
    rw [hfr]
  have hmem : e0.metadata.name ∈ entryNames m :=
    List.mem_map_of_mem (fun x => x.metadata.name) (findEntry_mem hfr).1
  unfold resolveOrder at h
  cases hd : dfs m (entryNames m) [root] ⟨[], []⟩ with
  | error err =>
    rw [hd] at h
    exact Except.noConfusion h
  | ok st =>
    rw [hd] at h
    injection h with hl
    subst hl
    simp only [dfs, hlk, hmem] at hd
    rw [dif_pos trivial] at hd
    cases hin : dfs m ((entryNames m).erase e0.metadata.name)
        e0.metadata.dependencies ⟨[e0.metadata.name], []⟩ with
    | error err =>
      rw [hin] at hd
      exact Except.noConfusion hd
    | ok st2 =>
      rw [hin] at hd
      injection hd with hd2
      refine ⟨st2.order, ?_⟩
      rw [← hd2]
      rw [hname]

/-- Registering `x` in its dependencies' dependents sets: an entry to which
some dependency name resolves gains `x` exactly once (`insertNew`); every
other entry is untouched. -/
theorem findEntry_registerDependents (x : String) :
    ∀ (ds : List String) (m : Manager), WellFormed m →
      ∀ (q : String) (e0 : Entry), findEntry m q = some e0 →
      ((¬ ∃ dd ∈ ds, ∃ de, lookupEntry m dd = some de ∧
          de.metadata.name = q) →
        findEntry (registerDependents m x ds) q = some e0) ∧
      ((∃ dd ∈ ds, ∃ de, lookupEntry m dd = some de ∧
          de.metadata.name = q) →
        findEntry (registerDependents m x ds) q =
          some { e0 with dependents := insertNew x e0.dependents }) := by
  intro ds
  induction ds with
  | nil =>
    intro m _ q e0 hfe
    refine ⟨fun _ => hfe, ?_⟩
    rintro ⟨dd, hdd, _⟩
    exact absurd hdd (List.not_mem_nil dd)
  | cons dd ds' ih =>
    intro m hwf q e0 hfe
    cases hlk : lookupEntry m dd with
    | none =>
      have hred : registerDependents m x (dd :: ds') =
          registerDependents m x ds' := by
        simp only [registerDependents, List.foldl_cons, hlk]
      have h1 := ih m hwf q e0 hfe
      constructor
      · intro hnex
        rw [hred]
        refine h1.1 ?_
        rintro ⟨dd', hdd', de', hlk', hn'⟩
        exact hnex ⟨dd', List.mem_cons_of_mem _ hdd', de', hlk', hn'⟩
      · rintro ⟨dd', hdd', de', hlk', hn'⟩
        rw [hred]
        rcases List.mem_cons.mp hdd' with rfl | hdd2
        · rw [hlk] at hlk'
          exact Option.noConfusion hlk'
        · exact h1.2 ⟨dd', hdd2, de', hlk', hn'⟩
    | some de =>
      set f := fun de' : Entry =>
        { de' with dependents := insertNew x de'.dependents } with hf
      set m1 := setEntryF m de.metadata.name f with hm1
      have hred : registerDependents m x (dd :: ds') =
          registerDependents m1 x ds' := by
        simp only [registerDependents, List.foldl_cons, hlk, hm1, hf]
      have hwf1 : WellFormed m1 := by
        unfold WellFormed
        rw [hm1, entryNames_setEntryF m de.metadata.name f (fun _ => rfl)]
        exact hwf
      have hexiff : ∀ dd',
          (∃ de', lookupEntry m1 dd' = some de' ∧ de'.metadata.name = q) ↔
          (∃ de', lookupEntry m dd' = some de' ∧ de'.metadata.name = q) := by
        intro dd'
        have hmap := lookupEntry_name_setEntryF m de.metadata.name f
          (fun _ => rfl) dd'
        rw [← hm1] at hmap
        constructor
        · rintro ⟨de', hlk', hn'⟩
          rw [hlk'] at hmap
          cases hlk2 : lookupEntry m dd' with
          | none =>
            rw [hlk2] at hmap
            exact Option.noConfusion hmap
          | some de2 =>
            rw [hlk2] at hmap
            simp only [Option.map_some'] at hmap
            injection hmap with hm2
            exact ⟨de2, rfl, by rw [← hm2]; exact hn'⟩
        · rintro ⟨de', hlk', hn'⟩
          rw [hlk'] at hmap
          cases hlk2 : lookupEntry m1 dd' with
          | none =>
            rw [hlk2] at hmap
            exact Option.noConfusion hmap
          | some de2 =>
            rw [hlk2] at hmap
            simp only [Option.map_some'] at hmap
            injection hmap with hm2
            exact ⟨de2, rfl, by rw [hm2]; exact hn'⟩
      by_cases hq : de.metadata.name = q
      · have hcan : findEntry m de.metadata.name = some de :=
          lookupEntry_canonical hwf hlk
        have hde : de = e0 := by
          rw [hq, hfe] at hcan
          injection hcan with h'
          exact h'.symm
        have hfe1 : findEntry m1 q = some (f e0) := by
          have hself := findEntry_setEntryF_self m de.metadata.name f
            (fun _ => rfl) hcan
          rw [← hm1] at hself
          rw [hq, hde] at hself
          exact hself
        have h1 := ih m1 hwf1 q (f e0) hfe1
        refine ⟨?_, ?_⟩
        · intro hnex
          exact absurd ⟨dd, List.mem_cons_self _ _, de, hlk, hq⟩ hnex
        · intro _
          by_cases hex' : ∃ dd' ∈ ds', ∃ de', lookupEntry m1 dd' = some de' ∧
              de'.metadata.name = q
          · rw [hred, h1.2 hex']
            simp only [hf]
            rw [insertNew_idem]
          · rw [hred, h1.1 hex']
      · have hqne : q ≠ de.metadata.name := fun hc => hq hc.symm
        have hfe1 : findEntry m1 q = some e0 := by
          rw [hm1, findEntry_setEntryF_other m de.metadata.name f
            (fun _ => rfl) q hqne]
          exact hfe
        have h1 := ih m1 hwf1 q e0 hfe1
        constructor
        · intro hnex
          rw [hred]
          refine h1.1 ?_
          rintro ⟨dd', hdd', de', hlk', hn'⟩
          exact hnex ⟨dd', List.mem_cons_of_mem _ hdd',
            ((hexiff dd').mp ⟨de', hlk', hn'⟩).choose,
            ((hexiff dd').mp ⟨de', hlk', hn'⟩).choose_spec⟩
        · rintro ⟨dd', hdd', de', hlk', hn'⟩
          rw [hred]
          rcases List.mem_cons.mp hdd' with rfl | hdd2
          · rw [hlk] at hlk'
            injection hlk' with hde'
            rw [← hde'] at hn'
            exact absurd hn' hq
          · refine h1.2 ⟨dd', hdd2, ?_⟩
            obtain ⟨de2, hlk2, hn2⟩ := (hexiff dd').mpr ⟨de', hlk', hn'⟩
            exact ⟨de2, hlk2, hn2⟩

theorem findEntry_openModule_other (w : World) (m : Manager) (id : String)
    (e : Entry) {mo : Manager} (h : openModule w m id e = some mo)
    (q : String) (hq : q ≠ id) : findEntry mo q = findEntry m q := by
  unfold openModule at h
  by_cases hs : e.isStatic = true
  · rw [if_pos hs] at h
    injection h with h'
    rw [← h']
  · rw [if_neg hs] at h
    by_cases ho : w.openOk id = true
    · rw [if_pos ho] at h
      injection h with h'
      rw [← h']
      show findEntry (setEntryF m id
        (fun e' => { e' with module := some m.nextHandle })) q = findEntry m q
      exact findEntry_setEntryF_other m id
        (fun e' => { e' with module := some m.nextHandle }) (fun _ => rfl) q hq
    · rw [if_neg ho] at h
      exact Option.noConfusion h

theorem findEntry_openModule_self (w : World) (m : Manager) (id : String)
    (e : Entry) {mo : Manager} (h : openModule w m id e = some mo)
    (hfe : findEntry m id = some e) :
    ∃ e', findEntry mo id = some e' ∧ e'.metadata = e.metadata := by
  unfold openModule at h
  by_cases hs : e.isStatic = true
  · rw [if_pos hs] at h
    injection h with h'
    rw [← h']
    exact ⟨e, hfe, rfl⟩
  · rw [if_neg hs] at h
    by_cases ho : w.openOk id = true
    · rw [if_pos ho] at h
      injection h with h'
      rw [← h']
      refine ⟨{ e with module := some m.nextHandle }, ?_, rfl⟩
      show findEntry (setEntryF m id
        (fun e' => { e' with module := some m.nextHandle })) id = _
      exact findEntry_setEntryF_self m id
        (fun e' => { e' with module := some m.nextHandle }) (fun _ => rfl) hfe
    · rw [if_neg ho] at h
      exact Option.noConfusion h

theorem lookupEntry_name_openModule (w : World) (m : Manager) (id : String)
    (e : Entry) {mo : Manager} (h : openModule w m id e = some mo)
    (n : String) :
    (lookupEntry mo n).map (fun e' => e'.metadata.name) =
      (lookupEntry m n).map (fun e' => e'.metadata.name) := by
  unfold openModule at h
  by_cases hs : e.isStatic = true
  · rw [if_pos hs] at h
    injection h with h'
    rw [← h']
  · rw [if_neg hs] at h
    by_cases ho : w.openOk id = true
    · rw [if_pos ho] at h
      injection h with h'
      rw [← h']
      show (lookupEntry (setEntryF m id
        (fun e' => { e' with module := some m.nextHandle })) n).map _ = _
      exact lookupEntry_name_setEntryF m id
        (fun e' => { e' with module := some m.nextHandle }) (fun _ => rfl) n
    · rw [if_neg ho] at h
      exact Option.noConfusion h

/-- C8 (amended): loading plugin P that depends on an already-`Loaded` Q,
when every other entry in P's resolved order is already `Loaded` (so the
call loads exactly P) and P is not yet in Q's dependents, does not touch
Q's module handle and grows Q's dependents by exactly one. -/
theorem claim_c8_dependent_refcount (w : World) (m : Manager) (nameP : String)
    (eP eQ : Entry) (order : List String) (hwf : WellFormed m)
    (hlkP : lookupEntry m nameP = some eP)
    (hPnl : ¬ eP.state = .Loaded)
    (hdep : ∃ d ∈ eP.metadata.dependencies, lookupEntry m d = some eQ)
    (hQl : eQ.state = .Loaded)
    (hPnotin : eP.metadata.name ∉ eQ.dependents)
    (hro : resolveOrder m eP.metadata.name = .ok order)
    (hother : ∀ x ∈ order, x ≠ eP.metadata.name → stateAt m x = .Loaded)
    (hsucc : (load w m nameP).1 = .Loaded) :
    ∃ eQ', findEntry (load w m nameP).2 eQ.metadata.name = some eQ' ∧
      eQ'.module = eQ.module ∧
      eQ'.dependents.length = eQ.dependents.length + 1 := by
  have hfeP : findEntry m eP.metadata.name = some eP :=
    lookupEntry_canonical hwf hlkP
  obtain ⟨d0, hd0, hlkQ⟩ := hdep
  have hfeQ : findEntry m eQ.metadata.name = some eQ :=
    lookupEntry_canonical hwf hlkQ
  have hQneP : eQ.metadata.name ≠ eP.metadata.name := by
    intro hc
    rw [hc, hfeP] at hfeQ
    injection hfeQ with h'
    rw [← h'] at hQl
    exact hPnl hQl
  obtain ⟨order', ho'⟩ := resolveOrder_root_last m eP.metadata.name eP hfeP hro
  have hnd := (resolveOrder_props m hwf eP.metadata.name hro).1
  rw [ho'] at hnd
  have hPnotin' : eP.metadata.name ∉ order' := by
    rcases List.nodup_append.mp hnd with ⟨_, _, hdisj⟩
    intro hc
    exact hdisj hc (List.mem_cons_self _ _)
  have hall : ∀ x ∈ order', stateAt m x = .Loaded := by
    intro x hx
    refine hother x (by rw [ho']; exact List.mem_append_left _ hx) ?_
    intro hc
    exact hPnotin' (hc ▸ hx)
  have hload : load w m nameP =
      loadChainGo w m m (order' ++ [eP.metadata.name]) := by
    rw [show order' ++ [eP.metadata.name] = order from ho'.symm]
    simp only [load, hlkP, if_neg hPnl, hro]
  rw [hload] at hsucc ⊢
  rw [loadChainGo_skip_loaded w m order' [eP.metadata.name] m hall]
    at hsucc ⊢
  simp only [loadChainGo, hfeP, if_neg hPnl] at hsucc ⊢
  cases ho : openModule w m eP.metadata.name eP with
  | none =>
    rw [ho] at hsucc
    simp only at hsucc
    exact absurd hsucc (fun hc => LoadState.noConfusion hc)
  | some mo =>
    rw [ho] at hsucc
    simp only at hsucc ⊢
    by_cases hi : w.moduleInterface eP.metadata.name ≠ m.expectedInterface
    · rw [if_pos hi] at hsucc
      exact absurd hsucc (fun hc => LoadState.noConfusion hc)
    · rw [if_neg hi] at hsucc ⊢
      by_cases hv : w.moduleVersion eP.metadata.name ≠ m.expectedVersion
      · rw [if_pos hv] at hsucc
        exact absurd hsucc (fun hc => LoadState.noConfusion hc)
      · rw [if_neg hv] at hsucc ⊢
        simp only [loadChainGo]
        have hfeQmo : findEntry mo eQ.metadata.name = some eQ := by
          rw [findEntry_openModule_other w m eP.metadata.name eP ho
            eQ.metadata.name hQneP]
          exact hfeQ
        obtain ⟨ePm, hfePm, hmdP⟩ :=
          findEntry_openModule_self w m eP.metadata.name eP ho hfeP
        have hfin : finishLoad mo eP.metadata.name =
            registerDependents (setState mo eP.metadata.name .Loaded)
              eP.metadata.name ePm.metadata.dependencies := by
          unfold finishLoad
          rw [hfePm]
        rw [hfin, hmdP]
        have hfeQsl : findEntry (setState mo eP.metadata.name .Loaded)
            eQ.metadata.name = some eQ := by
          unfold setState
          rw [findEntry_setEntryF_other mo eP.metadata.name
            (fun e' => { e' with state := .Loaded }) (fun _ => rfl)
            eQ.metadata.name hQneP]
          exact hfeQmo
        have hwfsl : WellFormed (setState mo eP.metadata.name .Loaded) := by
          unfold WellFormed setState
          rw [entryNames_setEntryF mo eP.metadata.name
            (fun e' => { e' with state := .Loaded }) (fun _ => rfl)]
          rw [entryNames_of_profile (profile_openModule w m eP.metadata.name
            eP ho)]
          exact hwf
        have hreg := findEntry_registerDependents eP.metadata.name
          eP.metadata.dependencies (setState mo eP.metadata.name .Loaded)
          hwfsl eQ.metadata.name eQ hfeQsl
        have hex : ∃ dd ∈ eP.metadata.dependencies, ∃ de,
            lookupEntry (setState mo eP.metadata.name .Loaded) dd = some de ∧
            de.metadata.name = eQ.metadata.name := by
          refine ⟨d0, hd0, ?_⟩
          have h1 : (lookupEntry (setState mo eP.metadata.name .Loaded)
              d0).map (fun e' => e'.metadata.name) =
              (lookupEntry mo d0).map (fun e' => e'.metadata.name) := by
            unfold setState
            exact lookupEntry_name_setEntryF mo eP.metadata.name
              (fun e' => { e' with state := .Loaded }) (fun _ => rfl) d0
          have h2 := lookupEntry_name_openModule w m eP.metadata.name eP ho d0
          rw [h2, hlkQ] at h1
          cases hlk3 : lookupEntry (setState mo eP.metadata.name .Loaded) d0
            with
          | none =>
            rw [hlk3] at h1
            exact Option.noConfusion h1
          | some de =>
            rw [hlk3] at h1
            simp only [Option.map_some'] at h1
            injection h1 with h1'
            exact ⟨de, rfl, h1'⟩
        refine ⟨{ eQ with
          dependents := insertNew eP.metadata.name eQ.dependents },
          hreg.2 hex, rfl, ?_⟩
        show (insertNew eP.metadata.name eQ.dependents).length =
          eQ.dependents.length + 1
        exact insertNew_length_of_not_mem _ _ hPnotin

/-- A `Q` entry already loaded (handle 0), with no dependents yet. -/
def eQLoaded : Entry :=
  { metadata := mdSimple "Q" [], state := .Loaded, module := some 0,
    dependents := [], instanceCount := 0, isStatic := false }

/-- Registry with loaded `Q` and a not-yet-loaded `P` depending on `Q`. -/
def mPQ : Manager :=
  { entries := [eQLoaded, freshEntry (mdSimple "P" ["Q"]) none false],
    shadowed := [], expectedInterface := "I", expectedVersion := 1,
    nextHandle := 1 }

/-- Registry with loaded `Q`, and not-yet-loaded `R` (depends on `Q`) and
`P` (depends on `R` and `Q`). -/
def mPQR : Manager :=
  { entries := [eQLoaded, freshEntry (mdSimple "R" ["Q"]) none false,
      freshEntry (mdSimple "P" ["R", "Q"]) none false],
    shadowed := [], expectedInterface := "I", expectedVersion := 1,
    nextHandle := 1 }

/-- C8 counterexample: `P` depends on the already-loaded `Q` (and on `R`,
which also depends on `Q` and gets loaded by the same call), so `load(P)`
grows `Q`'s dependent count by 2, not by exactly 1 as the claim states. -/
theorem claim_c8_counterexample :
    (load wOK mPQR "P").1 = .Loaded ∧
    (findEntry mPQR "Q").map (fun e => e.dependents.length) = some 0 ∧
    (findEntry (load wOK mPQR "P").2 "Q").map
      (fun e => e.dependents.length) = some 2 ∧
    (2 : Nat) ≠ 0 + 1 := by
  refine ⟨?_, by decide, ?_, by decide⟩
  · simp [load, wOK, mPQR, eQLoaded, freshEntry, mdSimple, lookupEntry,
      findEntry, resolveOrder, dfs, entryNames, loadChainGo, openModule,
      finishLoad, registerDependents, insertNew, setState, setEntryF,
      errState]
  · simp [load, wOK, mPQR, eQLoaded, freshEntry, mdSimple, lookupEntry,
      findEntry, resolveOrder, dfs, entryNames, loadChainGo, openModule,
      finishLoad, registerDependents, insertNew, setState, setEntryF,
      errState]

/-- C8 witness: the amended theorem applied to loaded `Q` and fresh `P`
depending only on `Q`: `Q` keeps handle 0 and gains exactly one
dependent. -/
theorem claim_c8_dependent_refcount_witness :
    ∃ eQ', findEntry (load wOK mPQ "P").2 "Q" = some eQ' ∧
      eQ'.module = some 0 ∧ eQ'.dependents.length = 0 + 1 :=
  claim_c8_dependent_refcount wOK mPQ "P"
    (freshEntry (mdSimple "P" ["Q"]) none false) eQLoaded ["Q", "P"]
    (by unfold WellFormed; decide)
    (by decide)
    (by decide)
    ⟨"Q", by decide, by decide⟩
    (by decide)
    (by decide)
    (by simp [resolveOrder, dfs, mPQ, eQLoaded, freshEntry, mdSimple,
      entryNames, lookupEntry, findEntry])
    (by decide)
    (by simp [load, wOK, mPQ, eQLoaded, freshEntry, mdSimple, lookupEntry,
      findEntry, resolveOrder, dfs, entryNames, loadChainGo, openModule,
      finishLoad, registerDependents, insertNew, setState, setEntryF,
      errState])

/-! ### Construction (static/dynamic merge) lemmas for shadowing -/

theorem entries_foldl_addStatic (l : List Metadata) :
    ∀ m e, e ∈ (l.foldl addStatic m).entries →
      e ∈ m.entries ∨ e.metadata ∈ l := by
  induction l with
  | nil =>
    intro m e he
    exact Or.inl he
  | cons a t ih =>
    intro m e he
    rcases ih (addStatic m a) e he with h1 | h2
    · unfold addStatic at h1
      by_cases hp : m.entries.any (fun e => e.metadata.name == a.name) = true
      · rw [if_pos hp] at h1
        exact Or.inl h1
      · rw [if_neg hp] at h1
        simp only at h1
        rcases List.mem_append.mp h1 with h3 | h4
        · exact Or.inl h3
        · right
          have : e = freshEntry a (some m.nextHandle) true := by
            simpa using h4
          rw [this]
          exact List.mem_cons_self _ _
    · exact Or.inr (List.mem_cons_of_mem _ h2)

theorem entries_foldl_addDynamic (l : List Metadata) :
    ∀ m e, e ∈ (l.foldl addDynamic m).entries →
      e ∈ m.entries ∨ e.metadata ∈ l := by
  induction l with
  | nil =>
    intro m e he
    exact Or.inl he
  | cons a t ih =>
    intro m e he
    rcases ih (addDynamic m a) e he with h1 | h2
    · unfold addDynamic at h1
      by_cases hp : m.entries.any (fun e => e.metadata.name == a.name) = true
      · rw [if_pos hp] at h1
        exact Or.inl h1
      · rw [if_neg hp] at h1
        simp only at h1
        rcases List.mem_append.mp h1 with h3 | h4
        · exact Or.inl h3
        · right
          have : e = freshEntry a none false := by
            simpa using h4
          rw [this]
          exact List.mem_cons_self _ _
    · exact Or.inr (List.mem_cons_of_mem _ h2)

theorem named_foldl_addStatic (l : List Metadata) :
    ∀ m (n : String), (∃ e ∈ m.entries, e.metadata.name = n) →
      ∃ e ∈ (l.foldl addStatic m).entries, e.metadata.name = n := by
  induction l with
  | nil =>
    intro m n h
    exact h
  | cons a t ih =>
    intro m n ⟨e, he, hn⟩
    refine ih (addStatic m a) n ?_
    unfold addStatic
    by_cases hp : m.entries.any (fun e => e.metadata.name == a.name) = true
    · rw [if_pos hp]
      exact ⟨e, he, hn⟩
    · rw [if_neg hp]
      exact ⟨e, List.mem_append_left _ he, hn⟩

theorem named_foldl_addDynamic (l : List Metadata) :
    ∀ m (n : String), (∃ e ∈ m.entries, e.metadata.name = n) →
      ∃ e ∈ (l.foldl addDynamic m).entries, e.metadata.name = n := by
  induction l with
  | nil =>
    intro m n h
    exact h
  | cons a t ih =>
    intro m n ⟨e, he, hn⟩
    refine ih (addDynamic m a) n ?_
    unfold addDynamic
    by_cases hp : m.entries.any (fun e => e.metadata.name == a.name) = true
    · rw [if_pos hp]
      exact ⟨e, he, hn⟩
    · rw [if_neg hp]
      exact ⟨e, List.mem_append_left _ he, hn⟩

theorem named_of_mem_foldl_addStatic (l : List Metadata) :
    ∀ m c, c ∈ l →
      ∃ e ∈ (l.foldl addStatic m).entries, e.metadata.name = c.name := by
  induction l with
  | nil =>
    intro m c hc
    cases hc
  | cons a t ih =>
    intro m c hc
    rcases List.mem_cons.mp hc with rfl | hc2
    · refine named_foldl_addStatic t (addStatic m c) c.name ?_
      unfold addStatic
      by_cases hp : m.entries.any (fun e => e.metadata.name == c.name) = true
      · rw [if_pos hp]
        obtain ⟨e, he, hb⟩ := List.any_eq_true.mp hp
        exact ⟨e, he, by simpa using hb⟩
      · rw [if_neg hp]
        exact ⟨freshEntry c (some m.nextHandle) true,
          List.mem_append_right _ (List.mem_singleton_self _), rfl⟩
    · exact ih (addStatic m a) c hc2

theorem named_of_mem_foldl_addDynamic (l : List Metadata) :
    ∀ m c, c ∈ l →
      ∃ e ∈ (l.foldl addDynamic m).entries, e.metadata.name = c.name := by
  induction l with
  | nil =>
    intro m c hc
    cases hc
  | cons a t ih =>
    intro m c hc
    rcases List.mem_cons.mp hc with rfl | hc2
    · refine named_foldl_addDynamic t (addDynamic m c) c.name ?_
      unfold addDynamic
      by_cases hp : m.entries.any (fun e => e.metadata.name == c.name) = true
      · rw [if_pos hp]
        obtain ⟨e, he, hb⟩ := List.any_eq_true.mp hp
        exact ⟨e, he, by simpa using hb⟩
      · rw [if_neg hp]
        exact ⟨freshEntry c none false,
          List.mem_append_right _ (List.mem_singleton_self _), rfl⟩
    · exact ih (addDynamic m a) c hc2

theorem no_d_foldl_addDynamic (d : Metadata) (l : List Metadata) :
    ∀ m, (∀ e ∈ m.entries, e.metadata ≠ d) →
      (∃ e ∈ m.entries, e.metadata.name = d.name) →
      ∀ e ∈ (l.foldl addDynamic m).entries, e.metadata ≠ d := by
  induction l with
  | nil =>
    intro m hno _ e he
    exact hno e he
  | cons a t ih =>
    intro m hno hex
    refine ih (addDynamic m a) ?_ ?_
    · intro e he
      unfold addDynamic at he
      by_cases hp : m.entries.any (fun e => e.metadata.name == a.name) = true
      · rw [if_pos hp] at he
        exact hno e he
      · rw [if_neg hp] at he
        simp only at he
        rcases List.mem_append.mp he with h3 | h4
        · exact hno e h3
        · have he2 : e = freshEntry a none false := by simpa using h4
          rw [he2]
          intro hc
          have had : a = d := hc
          apply hp
          obtain ⟨e', he', hn'⟩ := hex
          refine List.any_eq_true.mpr ⟨e', he', ?_⟩
          rw [had]
          simpa using hn'
    · obtain ⟨e, he, hn⟩ := hex
      unfold addDynamic
      by_cases hp : m.entries.any (fun e => e.metadata.name == a.name) = true
      · rw [if_pos hp]
        exact ⟨e, he, hn⟩
      · rw [if_neg hp]
        exact ⟨e, List.mem_append_left _ he, hn⟩

theorem shadowed_foldl_addDynamic (l : List Metadata) :
    ∀ m x, x ∈ m.shadowed → x ∈ (l.foldl addDynamic m).shadowed := by
  induction l with
  | nil =>
    intro m x hx
    exact hx
  | cons a t ih =>
    intro m x hx
    refine ih (addDynamic m a) x ?_
    unfold addDynamic
    by_cases hp : m.entries.any (fun e => e.metadata.name == a.name) = true
    · rw [if_pos hp]
      exact List.mem_append_left _ hx
    · rw [if_neg hp]
      exact hx

theorem metadata_mem_of_run (w : World) (m : Manager) (ops : List Op) :
    ∀ e' ∈ (run w m ops).entries, ∃ e'' ∈ m.entries,
      e''.metadata = e'.metadata := by
  intro e' he'
  have hp := congrArg Prod.fst (profile_run w m ops)
  simp only [profile] at hp
  have hmem : entryKey e' ∈ (run w m ops).entries.map entryKey :=
    List.mem_map_of_mem entryKey he'
  rw [hp] at hmem
  obtain ⟨e'', he'', hk⟩ := List.mem_map.mp hmem
  refine ⟨e'', he'', ?_⟩
  exact congrArg Prod.fst hk

/-- C9: a dynamic candidate `d` whose name collides with an earlier
candidate — a static plugin or an earlier-discovered dynamic candidate —
is recorded as shadowed at Manager construction, and no entry created from
it ever exists, so in particular no entry holding `d`'s metadata is ever
`Loaded`, under any sequence of Manager operations (including loads by any
of `d`'s aliases).  `d` is assumed distinct from the earlier same-named
candidates (for identical duplicates the two are indistinguishable). -/
theorem claim_c9_shadowed_never_loaded (w : World)
    (statics pre post : List Metadata) (d : Metadata) (iface : String)
    (ver : Nat)
    (hcol : (∃ s' ∈ statics, s'.name = d.name) ∨ ∃ p ∈ pre, p.name = d.name)
    (hdns : d ∉ statics) (hdnp : d ∉ pre) :
    d ∈ (mkManager statics (pre ++ d :: post) iface ver).shadowed ∧
    ∀ ops e', e' ∈ (run w (mkManager statics (pre ++ d :: post) iface ver)
        ops).entries → e'.state = .Loaded → e'.metadata ≠ d := by
  have hmk : mkManager statics (pre ++ d :: post) iface ver =
      (d :: post).foldl addDynamic
        (pre.foldl addDynamic
          (statics.foldl addStatic
            { entries := [], shadowed := [], expectedInterface := iface,
              expectedVersion := ver, nextHandle := 0 })) := by
    unfold mkManager
    rw [List.foldl_append]
  set m1 := statics.foldl addStatic
    { entries := [], shadowed := [], expectedInterface := iface,
      expectedVersion := ver, nextHandle := 0 } with hm1
  set m2 := pre.foldl addDynamic m1 with hm2
  have hex2 : ∃ e ∈ m2.entries, e.metadata.name = d.name := by
    rcases hcol with ⟨s', hs', hn'⟩ | ⟨p, hp', hn'⟩
    · obtain ⟨e, he, hn⟩ := named_of_mem_foldl_addStatic statics _ s' hs'
      rw [← hm1] at he
      exact named_foldl_addDynamic pre m1 d.name ⟨e, he, by rw [hn, hn']⟩
    · obtain ⟨e, he, hn⟩ := named_of_mem_foldl_addDynamic pre m1 p hp'
      rw [← hm2] at he
      exact ⟨e, he, by rw [hn, hn']⟩
  have hno2 : ∀ e ∈ m2.entries, e.metadata ≠ d := by
    intro e he
    rcases entries_foldl_addDynamic pre m1 e he with h1 | h2
    · rcases entries_foldl_addStatic statics
        { entries := [], shadowed := [], expectedInterface := iface,
          expectedVersion := ver, nextHandle := 0 } e h1 with h3 | h4
      · exact absurd h3 (List.not_mem_nil e)
      · intro hc
        exact hdns (hc ▸ h4)
    · intro hc
      exact hdnp (hc ▸ h2)
  constructor
  · rw [hmk]
    show d ∈ ((d :: post).foldl addDynamic m2).shadowed
    refine shadowed_foldl_addDynamic post (addDynamic m2 d) d ?_
    unfold addDynamic
    obtain ⟨e, he, hn⟩ := hex2
    rw [if_pos (List.any_eq_true.mpr ⟨e, he, by simpa using hn⟩)]
    exact List.mem_append_right _ (List.mem_singleton_self _)
  · intro ops e' he' _
    have hnomk : ∀ e ∈ (mkManager statics (pre ++ d :: post) iface ver).entries,
        e.metadata ≠ d := by
      rw [hmk]
      show ∀ e ∈ ((d :: post).foldl addDynamic m2).entries, e.metadata ≠ d
      exact no_d_foldl_addDynamic d (d :: post) m2 hno2 hex2
    obtain ⟨e'', he'', hmeta⟩ :=
      metadata_mem_of_run w (mkManager statics (pre ++ d :: post) iface ver)
        ops e' he'
    rw [← hmeta]
    exact hnomk e'' he''

/-- A dynamic candidate whose name collides with the static plugin `S`. -/
def mdShadow : Metadata :=
  { name := "S", interface := "J", version := 2, dependencies := [],
    aliases := ["sAlias"], defaultProviderFor := [] }

/-- C9 witness: the dynamic candidate `mdShadow` collides with the static
`S`; it is recorded as shadowed and no entry with its metadata is ever
`Loaded`, exercised with a load by its alias. -/
theorem claim_c9_shadowed_never_loaded_witness :
    mdShadow ∈ (mkManager [mdSimple "S" []] ([] ++ mdShadow :: []) "I" 1).shadowed ∧
    ∀ e', e' ∈ (run wOK (mkManager [mdSimple "S" []] ([] ++ mdShadow :: []) "I" 1)
        [.loadOp "sAlias"]).entries →
      e'.state = .Loaded → e'.metadata ≠ mdShadow := by
  have h := claim_c9_shadowed_never_loaded wOK [mdSimple "S" []] [] []
    mdShadow "I" 1
    (Or.inl ⟨mdSimple "S" [], by decide, by decide⟩)
    (by decide) (by decide)
  exact ⟨h.1, fun e' he' hl => h.2 [.loadOp "sAlias"] e' he' hl⟩

/-- An entry left in the failure state `WrongInterface`, used to exercise
failing load and unload calls. -/
def eDogWI : Entry :=
  { metadata := mdSimple "Dog" [], state := .WrongInterface, module := none,
    dependents := [], instanceCount := 0, isStatic := false }

/-- One-entry manager holding `eDogWI`. -/
def mDogWI : Manager :=
  { entries := [eDogWI], shadowed := [], expectedInterface := "I",
    expectedVersion := 1, nextHandle := 0 }

/-- A World in which the platform open and the finalize hook both fail. -/
def wFail : World :=
  { openOk := fun _ => false, moduleInterface := fun _ => "I",
    moduleVersion := fun _ => 1, finalizeOk := fun _ => false }

/-- C2 witness: a load failing with `LoadFailed` (platform open fails) and
an unload failing with `UnloadFailed` (finalize fails) both leave the open
handles, the transition-freedom and the out-of-closure entries exactly as
they were. -/
theorem claim_c2_atomic_failure_witness :
    (openHandles (load wFail mDogWI "Dog").2 = openHandles mDogWI ∧
      (∀ id, stateAt (load wFail mDogWI "Dog").2 id = .Loading ∨
          stateAt (load wFail mDogWI "Dog").2 id = .Unloading →
        stateAt (load wFail mDogWI "Dog").2 id = stateAt mDogWI id) ∧
      (∀ id, ¬ InClosure mDogWI "Dog" id →
        findEntry (load wFail mDogWI "Dog").2 id = findEntry mDogWI id)) ∧
    (openHandles (unload wFail mDogWI "Dog").2 = openHandles mDogWI ∧
      (∀ id, stateAt (unload wFail mDogWI "Dog").2 id = .Loading ∨
          stateAt (unload wFail mDogWI "Dog").2 id = .Unloading →
        stateAt (unload wFail mDogWI "Dog").2 id = stateAt mDogWI id) ∧
      (∀ id, ¬ InClosure mDogWI "Dog" id →
        findEntry (unload wFail mDogWI "Dog").2 id = findEntry mDogWI id)) := by
  have h := claim_c2_atomic_failure wFail mDogWI "Dog"
    (by unfold WellFormed; decide)
  refine ⟨h.1 ?_, h.2 (by decide)⟩
  simp [load, wFail, mDogWI, eDogWI, mdSimple, lookupEntry, findEntry,
    resolveOrder, dfs, entryNames, loadChainGo, openModule, errState]

theorem stateAt_run_static (w : World) :
    ∀ (ops : List Op) (m : Manager), WellFormed m →
      ∀ (x : String) (e : Entry), findEntry m x = some e →
        e.isStatic = true → e.state ≠ .NotLoaded →
        stateAt (run w m ops) x ≠ .NotLoaded := by
  intro ops
  induction ops with
  | nil =>
    intro m _ x e hfe _ hnl
    show stateAt m x ≠ _
    unfold stateAt
    rw [hfe]
    exact hnl
  | cons op ops' ih =>
    intro m hwf x e hfe hstat hnl
    show stateAt (run w (step w m op) ops') x ≠ _
    have hprof := profile_step w m op
    have hwf' : WellFormed (step w m op) := by
      unfold WellFormed
      rw [entryNames_of_profile hprof]
      exact hwf
    have hkey := findEntry_key_of_profile hprof x
    rw [hfe] at hkey
    cases hfe' : findEntry (step w m op) x with
    | none =>
      rw [hfe'] at hkey
      exact Option.noConfusion hkey
    | some e' =>
      rw [hfe'] at hkey
      injection hkey with hkey'
      have hstat' : e'.isStatic = true := by
        have h2 := congrArg Prod.snd hkey'
        simp only [entryKey] at h2
        rw [h2]
        exact hstat
      have hnl' : e'.state ≠ .NotLoaded := by
        have h3 := stateAt_step_static w m op x e hwf hfe hstat hnl
        unfold stateAt at h3
        rw [hfe'] at h3
        exact h3
      exact ih (step w m op) hwf' x e' hfe' hstat' hnl'

/-- C6 (amended): in a wellformed registry, `unload` on a static entry
returns `Required` and changes nothing *provided the entry is not already
`NotLoaded`* (a never-loaded static entry is caught by §4.3's earlier
"no-op success if already `NotLoaded`" check and returns `NotLoaded`);
moreover a static entry whose state is not `NotLoaded` never has state
`NotLoaded` after any sequence of Manager operations. -/
theorem claim_c6_static_required (w : World) (m : Manager)
    (hwf : WellFormed m) :
    (∀ name e, lookupEntry m name = some e → e.isStatic = true →
      e.state ≠ .NotLoaded → unload w m name = (.Required, m)) ∧
    (∀ ops x e, findEntry m x = some e → e.isStatic = true →
      e.state ≠ .NotLoaded → stateAt (run w m ops) x ≠ .NotLoaded) := by
  constructor
  · intro name e hlk hstat hnl
    unfold unload
    rw [hlk]
    simp only [if_neg hnl]
    by_cases h2 : e.instanceCount > 0 ∨ ∃ d ∈ e.dependents,
        stateAt m d = .Loaded
    · simp only [if_pos h2]
    · simp only [if_neg h2, if_pos hstat]
  · intro ops x e hfe hstat hnl
    exact stateAt_run_static w ops m hwf x e hfe hstat hnl

/-- The one-static-plugin registry, fresh from construction (state
`NotLoaded`, handle present from process start). -/
def mStaticFresh : Manager := mkManager [mdSimple "S" []] [] "I" 1

/-- C6 counterexample: a static entry that was never loaded is in state
`NotLoaded`, and `unload` on it returns the `NotLoaded` no-op success —
not `Required` — because §4.3 checks "already NotLoaded" before the
static refusal.  So "every call of unload returns Required" fails. -/
theorem claim_c6_counterexample :
    (∃ e, lookupEntry mStaticFresh "S" = some e ∧ e.isStatic = true) ∧
    unload wOK mStaticFresh "S" = (.NotLoaded, mStaticFresh) ∧
    LoadState.NotLoaded ≠ LoadState.Required := by
  refine ⟨⟨freshEntry (mdSimple "S" []) (some 0) true, by decide, by decide⟩,
    by decide, by decide⟩

/-- A directly-built registry whose single static entry `S` is `Loaded`. -/
def eStaticLoaded : Entry :=
  { metadata := mdSimple "S" [], state := .Loaded, module := some 0,
    dependents := [], instanceCount := 0, isStatic := true }

/-- One-entry manager with the static `S` loaded. -/
def mStaticLoaded : Manager :=
  { entries := [eStaticLoaded], shadowed := [], expectedInterface := "I",
    expectedVersion := 1, nextHandle := 1 }

/-- C6 witness: unloading the loaded static `S` returns `Required`, and
after an unload-then-load sequence its state still is not `NotLoaded`. -/
theorem claim_c6_static_required_witness :
    unload wOK mStaticLoaded "S" = (.Required, mStaticLoaded) ∧
    stateAt (run wOK mStaticLoaded [.unloadOp "S", .loadOp "S"]) "S"
      ≠ .NotLoaded := by
  have h := claim_c6_static_required wOK mStaticLoaded
    (by unfold WellFormed; decide)
  exact ⟨h.1 "S" eStaticLoaded (by decide) (by decide) (by decide),
    h.2 [.unloadOp "S", .loadOp "S"] "S" eStaticLoaded (by decide)
      (by decide) (by decide)⟩

/-- C5 counterexample: with one *pre-existing* live instance of the loaded,
non-static, dependent-free plugin `Dog`, destroying the instance returned
by `instantiate` leaves one instance behind, so the subsequent `unload`
returns `Required`, not `NotLoaded` — the claim as stated omits the
no-other-instances hypothesis. -/
theorem claim_c5_counterexample :
    (∃ m1, instantiate (mDogLoaded 1) "Dog" = .ok ("Dog", m1) ∧
      (unload wOK (destroyInstance m1 "Dog") "Dog").1 = .Required) ∧
    LoadState.Required ≠ LoadState.NotLoaded := by
  refine ⟨⟨setEntryF (mDogLoaded 1) "Dog"
    (fun e => { e with instanceCount := e.instanceCount + 1 }),
    by rfl, by decide⟩, by decide⟩

/-- C5 witness: the amended lifecycle on the loaded instance-free `Dog`. -/
theorem claim_c5_instance_lifecycle_witness :
    ∃ m1, instantiate (mDogLoaded 0) "Dog" = .ok ("Dog", m1) ∧
      unload wOK m1 "Dog" = (.Required, m1) ∧
      (unload wOK (destroyInstance m1 "Dog") "Dog").1 = .NotLoaded ∧
      stateAt (unload wOK (destroyInstance m1 "Dog") "Dog").2 "Dog"
        = .NotLoaded :=
  claim_c5_instance_lifecycle wOK (mDogLoaded 0) "Dog" (eDogLoaded 0)
    (by decide) (by decide) (by decide) (by decide) (by decide) (by decide)

end Corrade
